import Mathlib

/-!
# Aptomi: resolution data, resolution-node events and durations

A verification development over three parts of the repository:

* `pkg/slinga/engine_service_usage_state.go`: `ServiceUsageData`, the instance map with its
  processing order, and the operations that record instances, edges and order;
* `pkg/engine/resolve/policy_resolver_node_events.go`: the errors and event-log entries that a
  resolution node produces;
* `pkg/util/time.go`: `TimeDiff` and its short human-readable rendering.

Go maps are embedded as association lists: a lookup returns the first binding of the key, a
store replaces that binding in place or adds a binding at the end, so a map built by stores
has one binding per key. Go's iteration order over a map is unspecified; every statement
below that iterates over a map is proved for an arbitrary list, hence for every iteration
order. Maps are taken as allocated, as `newServiceUsageData` makes them. Pointers to
instances are embedded by value: an update through the pointer returned by
`getComponentInstanceEntry` is a store of the updated instance under the same key.
-/

namespace Aptomi

/-! ## Go maps -/

/-- Lookup `m[k]` with the `ok` flag: the binding of `k`, if there is one. -/
def mapLookup {β : Type} : List (String × β) → String → Option β
  | [], _ => none
  | (k', v) :: rest, k => if k' = k then some v else mapLookup rest k

/-- Assignment `m[k] = v`: replaces the binding of `k`, or adds one. -/
def mapStore {β : Type} (k : String) (v : β) : List (String × β) → List (String × β)
  | [] => [(k, v)]
  | (k', v') :: rest => if k' = k then (k, v) :: rest else (k', v') :: mapStore k v rest

/-- The keys of a map. -/
def mapKeys {β : Type} (m : List (String × β)) : List String := m.map Prod.fst

/-- Add to a Go set `map[string]bool`: `s[k] = true`. The set is kept as the list of its
members in order of first insertion. -/
def setAdd (s : List String) (k : String) : List String :=
  if k ∈ s then s else s ++ [k]

/-! ## Component instances -/

/-- Modelled from the spec: `ComponentInstance` and its methods are declared outside the
files at hand. The spec lists for an instance its key, the set of dependency ids using it, its
in-edges and its out-edges; `Resolved` is the flag that `setResolved` sets. Calculated
parameters, labels and rule-log entries are not touched by any operation embedded below. -/
structure ComponentInstance where
  Key : String
  Resolved : Bool
  DependencyIds : List String
  EdgesIn : List String
  EdgesOut : List String
deriving DecidableEq, Repr

/-- Modelled from the spec: `newComponentInstance(key)`, the fresh instance created on first
reference: it carries the key, is not resolved, and has no dependency and no edge. -/
def newComponentInstance (key : String) : ComponentInstance :=
  { Key := key, Resolved := false, DependencyIds := [], EdgesIn := [], EdgesOut := [] }

/-- Modelled from the spec: `instance.setResolved(resolved)` sets the resolved flag. -/
def ComponentInstance.setResolved (inst : ComponentInstance) (resolved : Bool) :
    ComponentInstance :=
  { inst with Resolved := resolved }

/-- Modelled from the spec: `instance.addDependency(id)` adds `id` to the set of dependency
ids using the instance. -/
def ComponentInstance.addDependency (inst : ComponentInstance) (dependencyID : String) :
    ComponentInstance :=
  { inst with DependencyIds := setAdd inst.DependencyIds dependencyID }

/-- Modelled from the spec: `instance.addEdgeIn(srcKey)` adds `srcKey` to the in-edges. -/
def ComponentInstance.addEdgeIn (inst : ComponentInstance) (srcKey : String) :
    ComponentInstance :=
  { inst with EdgesIn := setAdd inst.EdgesIn srcKey }

/-- Modelled from the spec: `instance.addEdgeOut(dstKey)` adds `dstKey` to the out-edges. -/
def ComponentInstance.addEdgeOut (inst : ComponentInstance) (dstKey : String) :
    ComponentInstance :=
  { inst with EdgesOut := setAdd inst.EdgesOut dstKey }

/-- Modelled from the spec: `instance.appendData(ops)`, the merge that mutates an instance:
the instance keeps its key, is resolved if either side is, and takes the union of the
dependency ids, of the in-edges and of the out-edges. -/
def ComponentInstance.appendData (inst ops : ComponentInstance) : ComponentInstance :=
  { inst with
    Resolved := inst.Resolved || ops.Resolved
    DependencyIds := ops.DependencyIds.foldl setAdd inst.DependencyIds
    EdgesIn := ops.EdgesIn.foldl setAdd inst.EdgesIn
    EdgesOut := ops.EdgesOut.foldl setAdd inst.EdgesOut }

/-- The part of `Dependency` that the operations below read: its id. -/
structure DependencyRef where
  ID : String
deriving DecidableEq, Repr

/-! ## ServiceUsageData -/

/-- `ServiceUsageData`: the instance map, the set of keys already in the processing order,
and the processing order. -/
structure ServiceUsageData where
  ComponentInstanceMap : List (String × ComponentInstance)
  componentProcessingOrderHas : List (String × Bool)
  ComponentProcessingOrder : List String
deriving DecidableEq, Repr

/-- `newServiceUsageData()`: two empty maps and an empty order. -/
def newServiceUsageData : ServiceUsageData :=
  { ComponentInstanceMap := [], componentProcessingOrderHas := [], ComponentProcessingOrder := [] }

/-- Reading `data.componentProcessingOrderHas[key]`: `false` for a key without binding. -/
def ServiceUsageData.orderHas (data : ServiceUsageData) (key : String) : Bool :=
  (mapLookup data.componentProcessingOrderHas key).getD false

/-- `data.getComponentInstanceEntry(key)`: creates the entry when the map has none, and
returns the entry of the map together with the data. -/
def ServiceUsageData.getComponentInstanceEntry (data : ServiceUsageData) (key : String) :
    ServiceUsageData × ComponentInstance :=
  match mapLookup data.ComponentInstanceMap key with
  | some inst => (data, inst)
  | none =>
    ({ data with
        ComponentInstanceMap := mapStore key (newComponentInstance key) data.ComponentInstanceMap },
      newComponentInstance key)

/-- A method call `data.getComponentInstanceEntry(key).f(...)`: the entry is fetched (or
created) and updated in place through the returned pointer. -/
def ServiceUsageData.updateEntry (data : ServiceUsageData) (key : String)
    (f : ComponentInstance → ComponentInstance) : ServiceUsageData :=
  let r := data.getComponentInstanceEntry key
  { r.1 with ComponentInstanceMap := mapStore key (f r.2) r.1.ComponentInstanceMap }

/-- `data.recordResolvedAndDependency(key, dependency)`. -/
def ServiceUsageData.recordResolvedAndDependency (data : ServiceUsageData) (key : String)
    (dependency : DependencyRef) : ServiceUsageData :=
  let data1 := data.updateEntry key (fun i => i.setResolved true)
  data1.updateEntry key (fun i => i.addDependency dependency.ID)

/-- `data.recordProcessingOrder(key)`. -/
def ServiceUsageData.recordProcessingOrder (data : ServiceUsageData) (key : String) :
    ServiceUsageData :=
  if !data.orderHas key then
    { data with
      componentProcessingOrderHas := mapStore key true data.componentProcessingOrderHas
      ComponentProcessingOrder := data.ComponentProcessingOrder ++ [key] }
  else data

/-- `data.storeEdge(key, keyDst)`. -/
def ServiceUsageData.storeEdge (data : ServiceUsageData) (key keyDst : String) :
    ServiceUsageData :=
  if key.length > 0 ∧ keyDst.length > 0 then
    let data1 := data.updateEntry key (fun i => i.addEdgeOut keyDst)
    data1.updateEntry keyDst (fun i => i.addEdgeIn key)
  else data

/-- `data.appendData(ops)`: first the instances of `ops`, in the order the map yields them,
then the processing order of `ops`. -/
def ServiceUsageData.appendData (data ops : ServiceUsageData) : ServiceUsageData :=
  let data1 := ops.ComponentInstanceMap.foldl
    (fun d kv => d.updateEntry kv.1 (fun i => i.appendData kv.2)) data
  ops.ComponentProcessingOrder.foldl (fun d key => d.recordProcessingOrder key) data1

/-! ### Observations on the instance graph -/

/-- The in-edges recorded on the instance at `k` (none when there is no instance). -/
def ServiceUsageData.edgesIn (data : ServiceUsageData) (k : String) : List String :=
  match mapLookup data.ComponentInstanceMap k with
  | some inst => inst.EdgesIn
  | none => []

/-- The out-edges recorded on the instance at `k` (none when there is no instance). -/
def ServiceUsageData.edgesOut (data : ServiceUsageData) (k : String) : List String :=
  match mapLookup data.ComponentInstanceMap k with
  | some inst => inst.EdgesOut
  | none => []

/-- In a processing order, `a` precedes `k`: `a` occurs before the first occurrence of `k`. -/
def precedes (order : List String) (a k : String) : Prop :=
  a ∈ order.takeWhile (fun x => decide (x ≠ k))

instance (order : List String) (a k : String) : Decidable (precedes order a k) := by
  unfold precedes; infer_instance

/-! ## Policy objects read by the resolution node -/

/-- Modelled from the spec: the allocation of a context, its ordered key templates. -/
structure Allocation where
  Keys : List String
deriving DecidableEq, Repr

/-- Modelled from the spec: a context of a contract, with its name and allocation. -/
structure Context where
  Name : String
  Allocation : Allocation
deriving DecidableEq, Repr

/-- Modelled from the spec: a contract, with its name and ordered contexts. -/
structure Contract where
  Name : String
  Contexts : List Context
deriving DecidableEq, Repr

/-- Modelled from the spec: the code of a component; events read its type (the field
`Type` of the source). -/
structure Code where
  Type_ : String
deriving DecidableEq, Repr

/-- Modelled from the spec: a service component, with an optional `Code` and a `Contract`
name that is empty when the component is no sub-dependency. -/
structure ServiceComponent where
  Name : String
  Code : Option Code
  Contract : String
deriving DecidableEq, Repr

/-- Modelled from the spec: a service, with its name and ordered components. -/
structure Service where
  Name : String
  Components : List ServiceComponent
deriving DecidableEq, Repr

/-- Modelled from the spec: a rule; events read its name. -/
structure Rule where
  Name : String
deriving DecidableEq, Repr

/-- Modelled from the spec: the aggregated result of the rules; events carry it as a field. -/
structure RuleActionResult where
  Allowed : Bool
deriving DecidableEq, Repr

/-- Modelled from the spec: a policy namespace; events read its name. -/
structure PolicyNamespace where
  Name : String
deriving DecidableEq, Repr

/-- Modelled from the spec: a dependency; `Namespace` is `Metadata.Namespace`. -/
structure Dependency where
  Namespace : String
  Name : String
  User : String
  Contract : String
deriving DecidableEq, Repr

/-- Modelled from the spec: a user of the user directory; events read the name. -/
structure User where
  Name : String
deriving DecidableEq, Repr

/-- Modelled from the spec: a label set, a map from label name to value. -/
structure LabelSet where
  Labels : List (String × String)
deriving DecidableEq, Repr

/-- Modelled from the spec: the key of a component instance; the component name is the
marker `root` for the service-level instance. -/
structure ComponentInstanceKey where
  Namespace : String
  ContractName : String
  ContextName : String
  AllocationKeys : List String
  ServiceName : String
  ComponentName : String
  ClusterName : String
deriving DecidableEq, Repr

/-- Modelled from the spec: `cik.IsService()`, true for the service-level instance. -/
def ComponentInstanceKey.IsService (cik : ComponentInstanceKey) : Bool :=
  cik.ComponentName == "root"

/-- Modelled from the spec: `cik.GetKey()`, the canonical form
`<namespace>#<contract>#<context>[#<alloc-key>…]#<service>[#<component>]`. -/
def ComponentInstanceKey.GetKey (cik : ComponentInstanceKey) : String :=
  "#".intercalate
    ([cik.Namespace, cik.ContractName, cik.ContextName] ++ cik.AllocationKeys ++
      [cik.ServiceName] ++ (if cik.IsService then [] else [cik.ComponentName]))

/-! ## Formatting -/

/-- The values that the source passes to a format verb. -/
inductive FmtArg where
  | str (s : String)
  | int (n : Int)
  | bool (b : Bool)
  | strings (l : List String)
  | labels (m : List (String × String))
deriving DecidableEq, Repr

/-- Rendering of a slice of strings by the verb `%s`: `[a b c]`. -/
def renderStrings (l : List String) : String :=
  "[" ++ " ".intercalate l ++ "]"

/-- Rendering of a map of strings by the verb `%s`: `map[k:v k:v]`, the bindings sorted by
key, as `fmt` prints a map. -/
def renderLabels (m : List (String × String)) : String :=
  "map[" ++ " ".intercalate
    ((m.mergeSort (fun a b => decide (a.1 ≤ b.1))).map (fun kv => kv.1 ++ ":" ++ kv.2)) ++ "]"

/-- Rendering of one argument by its verb (`%s`, `%d`, `%t`). -/
def FmtArg.render : FmtArg → String
  | .str s => s
  | .int n => toString n
  | .bool b => if b then "true" else "false"
  | .strings l => renderStrings l
  | .labels m => renderLabels m

/-- The fragment of `fmt.Sprintf` that the source uses, on characters: a `%` with its verb
character is replaced by the rendering of the next argument; other characters are copied. -/
def sprintfChars : List Char → List FmtArg → List Char
  | '%' :: _ :: rest, a :: args => a.render.data ++ sprintfChars rest args
  | c :: rest, args => c :: sprintfChars rest args
  | [], _ => []

/-- `fmt.Sprintf(format, args...)` for the verbs `%s`, `%d` and `%t`. -/
def Sprintf (format : String) (args : List FmtArg) : String :=
  String.mk (sprintfChars format.data args)

/-! ## Event log -/

/-- The levels of an event-log entry. -/
inductive Level where
  | debug
  | info
  | warning
  | error
deriving DecidableEq, Repr

/-- The values stored in the fields of an entry or in the details of an error. -/
inductive FieldValue where
  | str (s : String)
  | bool (b : Bool)
  | strings (l : List String)
  | labels (m : List (String × String))
  | contract (c : Contract)
  | service (s : Service)
  | context (c : Context)
  | rule (r : Rule)
  | ruleResult (r : RuleActionResult)
  | dependency (d : Dependency)
  | key (k : ComponentInstanceKey)
deriving DecidableEq, Repr

/-- Modelled from the spec: an entry of the event log carries a level, a map of fields and a
message. The message is kept as the format and the arguments given to `Infof`, `Debugf` or
`Warningf`; `Entry.message` is its text. The timestamp is left out. -/
structure Entry where
  level : Level
  fields : List (String × FieldValue)
  format : String
  args : List FmtArg
deriving DecidableEq, Repr

/-- The message text of an entry. -/
def Entry.message (e : Entry) : String := Sprintf e.format e.args

/-- Modelled from the spec: the event log, an append-only sequence of entries. -/
abbrev EventLog := List Entry

/-- Modelled from the spec: `log.WithFields(fields).Debugf(format, args...)` appends one
entry of level debug. -/
def EventLog.Debugf (log : EventLog) (fields : List (String × FieldValue)) (format : String)
    (args : List FmtArg) : EventLog :=
  log ++ [{ level := Level.debug, fields := fields, format := format, args := args }]

/-- Modelled from the spec: `log.WithFields(fields).Infof(format, args...)` appends one
entry of level info. -/
def EventLog.Infof (log : EventLog) (fields : List (String × FieldValue)) (format : String)
    (args : List FmtArg) : EventLog :=
  log ++ [{ level := Level.info, fields := fields, format := format, args := args }]

/-- Modelled from the spec: `log.WithFields(fields).Warningf(format, args...)` appends one
entry of level warning. -/
def EventLog.Warningf (log : EventLog) (fields : List (String × FieldValue)) (format : String)
    (args : List FmtArg) : EventLog :=
  log ++ [{ level := Level.warning, fields := fields, format := format, args := args }]

/-! ## Errors -/

/-- Modelled from the spec: an error with details, `{message, fields}`. -/
structure ErrorWithDetails where
  message : String
  details : List (String × FieldValue)
deriving DecidableEq, Repr

/-- Modelled from the spec: `errors.NewErrorWithDetails(message, details)`. -/
def NewErrorWithDetails (message : String) (details : List (String × FieldValue)) :
    ErrorWithDetails :=
  { message := message, details := details }

/-! ## The resolution node -/

/-- Modelled from the spec: the state held in one frame of the traversal, restricted to what
the events read. `user`, `service` and `component` are the pointers that the source tests
for nil, hence optional; `dependency`, `contract`, `context` and `labels` are read without
test everywhere and are taken as set. `LoadSecretsByUserName` stands for
`resolver.externalData.SecretLoader.LoadSecretsByUserName`. -/
structure resolutionNode where
  eventLog : EventLog
  depth : Int
  dependency : Dependency
  user : Option User
  contractName : String
  contract : Contract
  context : Context
  service : Option Service
  component : Option ServiceComponent
  labels : LabelSet
  path : List String
  LoadSecretsByUserName : String → List (String × String)

namespace resolutionNode

/-- `node.errorServiceCycleDetected()`; an `error` value is nil (`none`) or an error. -/
def errorServiceCycleDetected (node : resolutionNode) : Option ErrorWithDetails :=
  some (NewErrorWithDetails
    (Sprintf "Error when processing policy, service cycle detected: %s" [FmtArg.strings node.path])
    [("path", FieldValue.strings node.path)])

/-- `node.logLabels(labelSet, scope)`. -/
def logLabels (node : resolutionNode) (labelSet : LabelSet) (scope : String) : EventLog :=
  let secretCnt : Int :=
    match node.user with
    | some user => ((node.LoadSecretsByUserName user.Name).length : Int)
    | none => 0
  node.eventLog.Infof [("labels", FieldValue.labels labelSet.Labels)]
    "Labels (%s): %s and %d secrets"
    [FmtArg.str scope, FmtArg.labels labelSet.Labels, FmtArg.int secretCnt]

/-- `node.logStartResolvingDependency()`. -/
def logStartResolvingDependency (node : resolutionNode) : EventLog :=
  let log1 :=
    if node.depth = 0 then
      node.eventLog.Infof [] "Resolving top-level dependency '%s/%s' ('%s' -> '%s')"
        [FmtArg.str node.dependency.Namespace, FmtArg.str node.dependency.Name,
          FmtArg.str node.dependency.User, FmtArg.str node.dependency.Contract]
    else
      node.eventLog.Infof []
        "Resolving dependency '%s/%s' ('%s' -> '%s'): processing '%s', tree depth %d"
        [FmtArg.str node.dependency.Namespace, FmtArg.str node.dependency.Name,
          FmtArg.str node.dependency.User, FmtArg.str node.dependency.Contract,
          FmtArg.str node.contractName, FmtArg.int node.depth]
  logLabels { node with eventLog := log1 } node.labels "initial"

/-- `node.logContractFound(contract)`. -/
def logContractFound (node : resolutionNode) (contract : Contract) : EventLog :=
  node.eventLog.Debugf [("contract", FieldValue.contract contract)]
    "Contract found in policy: '%s'" [FmtArg.str contract.Name]

/-- `node.logServiceFound(service)`. -/
def logServiceFound (node : resolutionNode) (service : Service) : EventLog :=
  node.eventLog.Debugf [("service", FieldValue.service service)]
    "Service found in policy: '%s'" [FmtArg.str service.Name]

/-- `node.logStartMatchingContexts()`. -/
def logStartMatchingContexts (node : resolutionNode) : EventLog :=
  let contextNames := node.contract.Contexts.foldl (fun names context => names ++ [context.Name]) []
  node.eventLog.Infof [] "Picking context within contract '%s'. Trying contexts: %s"
    [FmtArg.str node.contract.Name, FmtArg.strings contextNames]

/-- `node.logContextMatched(contextMatched)`. -/
def logContextMatched (node : resolutionNode) (contextMatched : Context) : EventLog :=
  node.eventLog.Infof [] "Found matching context within contract '%s': %s"
    [FmtArg.str node.contract.Name, FmtArg.str contextMatched.Name]

/-- `node.logComponentNotMatched(component)`: the names come from the node, not from the
argument; `none` is the nil dereference of an unset service or component. -/
def logComponentNotMatched (node : resolutionNode) (_component : ServiceComponent) :
    Option EventLog :=
  match node.service, node.component with
  | some service, some component =>
    some (node.eventLog.Infof []
      "Component criteria evaluated to 'false', excluding it from processing: service '%s', component '%s'"
      [FmtArg.str service.Name, FmtArg.str component.Name])
  | _, _ => none

/-- `node.logTestedContextCriteria(context, matched)`. -/
def logTestedContextCriteria (node : resolutionNode) (context : Context) (matched : Bool) :
    EventLog :=
  node.eventLog.Debugf [("context", FieldValue.context context)]
    "Trying context '%s' within contract '%s'. Matched = %t"
    [FmtArg.str context.Name, FmtArg.str node.contract.Name, FmtArg.bool matched]

/-- `node.logRulesProcessingResult(policyNamespace, result)`. -/
def logRulesProcessingResult (node : resolutionNode) (policyNamespace : PolicyNamespace)
    (result : RuleActionResult) : EventLog :=
  node.eventLog.Debugf [("result", FieldValue.ruleResult result)]
    "Rules processed within namespace '%s' for context '%s' within contract '%s'"
    [FmtArg.str policyNamespace.Name, FmtArg.str node.context.Name, FmtArg.str node.contract.Name]

/-- `node.logTestedRuleMatch(rule, match)`. -/
def logTestedRuleMatch (node : resolutionNode) (rule : Rule) (matched : Bool) : EventLog :=
  node.eventLog.Debugf [("rule", FieldValue.rule rule), ("match", FieldValue.bool matched)]
    "Testing if rule '%s' applies in context '%s' within contract '%s'. Result: %t"
    [FmtArg.str rule.Name, FmtArg.str node.context.Name, FmtArg.str node.contract.Name,
      FmtArg.bool matched]

/-- `node.logAllocationKeysSuccessfullyResolved(resolvedKeys)`. -/
def logAllocationKeysSuccessfullyResolved (node : resolutionNode) (resolvedKeys : List String) :
    EventLog :=
  if resolvedKeys.length > 0 then
    node.eventLog.Infof
      [("keys", FieldValue.strings node.context.Allocation.Keys),
        ("keysResolved", FieldValue.strings resolvedKeys)]
      "Allocation keys successfully resolved for context '%s' within contract '%s': %s"
      [FmtArg.str node.context.Name, FmtArg.str node.contract.Name, FmtArg.strings resolvedKeys]
  else node.eventLog

/-- `node.logResolvingDependencyOnComponent()`; `none` is the nil dereference of an unset
component. -/
def logResolvingDependencyOnComponent (node : resolutionNode) : Option EventLog :=
  match node.component with
  | none => none
  | some component =>
    match component.Code with
    | some code =>
      some (node.eventLog.Infof [] "Processing dependency on component with code: %s (%s)"
        [FmtArg.str component.Name, FmtArg.str code.Type_])
    | none =>
      if component.Contract ≠ "" then
        some (node.eventLog.Infof [] "Processing dependency on another contract: %s"
          [FmtArg.str component.Contract])
      else
        some (node.eventLog.Warningf []
          "Skipping unknown component (not code and not contract): %s"
          [FmtArg.str component.Name])

/-- `node.logInstanceSuccessfullyResolved(cik)`; `none` is the nil dereference of an unset
user or, for a component instance, of an unset component. -/
def logInstanceSuccessfullyResolved (node : resolutionNode) (cik : ComponentInstanceKey) :
    Option EventLog :=
  match node.user with
  | none => none
  | some user =>
    let fields := [("user", FieldValue.str user.Name),
      ("dependency", FieldValue.dependency node.dependency), ("key", FieldValue.key cik)]
    if node.depth = 0 ∧ cik.IsService = true then
      some (node.eventLog.Infof fields
        "Successfully resolved dependency '%s/%s' ('%s' -> '%s'): %s"
        [FmtArg.str node.dependency.Namespace, FmtArg.str node.dependency.Name,
          FmtArg.str user.Name, FmtArg.str node.dependency.Contract, FmtArg.str cik.GetKey])
    else if cik.IsService = true then
      some (node.eventLog.Infof fields
        "Successfully resolved service instance '%s' -> '%s': %s"
        [FmtArg.str user.Name, FmtArg.str node.contract.Name, FmtArg.str cik.GetKey])
    else
      match node.component with
      | none => none
      | some component =>
        some (node.eventLog.Infof fields
          "Successfully resolved component instance '%s' -> '%s' (component '%s'): %s"
          [FmtArg.str user.Name, FmtArg.str node.contract.Name, FmtArg.str component.Name,
            FmtArg.str cik.GetKey])

/-- `node.logCannotResolveInstance()`. -/
def logCannotResolveInstance (node : resolutionNode) : EventLog :=
  match node.service with
  | none =>
    node.eventLog.Warningf [] "Cannot resolve instance: contract '%s'"
      [FmtArg.str node.contractName]
  | some service =>
    match node.component with
    | none =>
      node.eventLog.Warningf [] "Cannot resolve instance: contract '%s', service '%s'"
        [FmtArg.str node.contractName, FmtArg.str service.Name]
    | some component =>
      node.eventLog.Warningf []
        "Cannot resolve instance: contract '%s', service '%s', component '%s'"
        [FmtArg.str node.contractName, FmtArg.str service.Name, FmtArg.str component.Name]

end resolutionNode

/-- A call of one of the logging operations of a node, with its arguments. -/
inductive LogCall where
  | startResolvingDependency
  | labels (labelSet : LabelSet) (scope : String)
  | contractFound (contract : Contract)
  | serviceFound (service : Service)
  | startMatchingContexts
  | contextMatched (contextMatched : Context)
  | componentNotMatched (component : ServiceComponent)
  | testedContextCriteria (context : Context) (matched : Bool)
  | rulesProcessingResult (policyNamespace : PolicyNamespace) (result : RuleActionResult)
  | testedRuleMatch (rule : Rule) (matched : Bool)
  | allocationKeysSuccessfullyResolved (resolvedKeys : List String)
  | resolvingDependencyOnComponent
  | instanceSuccessfullyResolved (cik : ComponentInstanceKey)
  | cannotResolveInstance
deriving DecidableEq, Repr

/-- The event log that a call produces; `none` when the call stops at a nil dereference. -/
def LogCall.run (node : resolutionNode) : LogCall → Option EventLog
  | .startResolvingDependency => some node.logStartResolvingDependency
  | .labels labelSet scope => some (node.logLabels labelSet scope)
  | .contractFound contract => some (node.logContractFound contract)
  | .serviceFound service => some (node.logServiceFound service)
  | .startMatchingContexts => some node.logStartMatchingContexts
  | .contextMatched c => some (node.logContextMatched c)
  | .componentNotMatched component => node.logComponentNotMatched component
  | .testedContextCriteria context matched => some (node.logTestedContextCriteria context matched)
  | .rulesProcessingResult ns result => some (node.logRulesProcessingResult ns result)
  | .testedRuleMatch rule matched => some (node.logTestedRuleMatch rule matched)
  | .allocationKeysSuccessfullyResolved keys =>
    some (node.logAllocationKeysSuccessfullyResolved keys)
  | .resolvingDependencyOnComponent => node.logResolvingDependencyOnComponent
  | .instanceSuccessfullyResolved cik => node.logInstanceSuccessfullyResolved cik
  | .cannotResolveInstance => some node.logCannotResolveInstance

/-- The event log of the node after a call: the log the call produced, or the log as it was
when the call stopped at a nil dereference, which happens before anything is appended. -/
def LogCall.logAfter (node : resolutionNode) (call : LogCall) : EventLog :=
  (call.run node).getD node.eventLog

/-- A sequence of `storeEdge` calls, applied from left to right. -/
def ServiceUsageData.storeEdges (data : ServiceUsageData) (calls : List (String × String)) :
    ServiceUsageData :=
  calls.foldl (fun d c => d.storeEdge c.1 c.2) data

/-- The processing-order index agrees with the processing order: `componentProcessingOrderHas`
marks exactly the keys of `ComponentProcessingOrder`. -/
def ServiceUsageData.orderConsistent (data : ServiceUsageData) : Prop :=
  ∀ k, data.orderHas k = true ↔ k ∈ data.ComponentProcessingOrder

/-- The keys of `keys` that are not in `seen`, in the order of their first appearance in
`keys`, each once. -/
def firstNew : List String → List String → List String
  | _, [] => []
  | seen, k :: rest =>
    if k ∈ seen then firstNew seen rest else k :: firstNew (seen ++ [k]) rest

/-- The processing order is topological for the recorded edges: for every key of the order,
every in-edge of the instance at that key precedes it in the order. -/
def ServiceUsageData.topological (data : ServiceUsageData) : Prop :=
  ∀ k ∈ data.ComponentProcessingOrder, ∀ a ∈ data.edgesIn k,
    precedes data.ComponentProcessingOrder a k

instance (data : ServiceUsageData) : Decidable data.topological := by
  unfold ServiceUsageData.topological; infer_instance

/-- The data built from `newServiceUsageData` by `storeEdge`, `recordProcessingOrder` and
`appendData` of data built the same way. -/
inductive Built : ServiceUsageData → Prop where
  | new : Built newServiceUsageData
  | storeEdge (data : ServiceUsageData) (key keyDst : String) :
      Built data → Built (data.storeEdge key keyDst)
  | recordProcessingOrder (data : ServiceUsageData) (key : String) :
      Built data → Built (data.recordProcessingOrder key)
  | appendData (data ops : ServiceUsageData) :
      Built data → Built ops → Built (data.appendData ops)

/-- A concrete resolution of a dependency on `B`: the service instance `Bsvc` and its
component `Bcmp`, each recorded before its out-edge is followed. -/
def resolutionB : ServiceUsageData :=
  ((newServiceUsageData.recordProcessingOrder "Bsvc").storeEdge "Bsvc"
    "Bcmp").recordProcessingOrder "Bcmp"

/-- A concrete resolution of a chained dependency on `A`: the service `Asvc`, its component
`Acmp`, which depends on the service `Bsvc` with its component `Bcmp`; each instance is
recorded before its out-edge is followed. -/
def resolutionA : ServiceUsageData :=
  ((((((newServiceUsageData.recordProcessingOrder "Asvc").storeEdge "Asvc"
    "Acmp").recordProcessingOrder "Acmp").storeEdge "Acmp" "Bsvc").recordProcessingOrder
    "Bsvc").storeEdge "Bsvc" "Bcmp").recordProcessingOrder "Bcmp"

/-- A concrete node: the top-level frame of the dependency `main/dep1` of `alice` on the
contract `web`, with an empty event log and no service or component yet. -/
def sampleNode : resolutionNode :=
  { eventLog := []
    depth := 0
    dependency := { Namespace := "main", Name := "dep1", User := "alice", Contract := "web" }
    user := some { Name := "alice" }
    contractName := "web"
    contract := { Name := "web", Contexts := [{ Name := "prod", Allocation := { Keys := [] } }] }
    context := { Name := "prod", Allocation := { Keys := [] } }
    service := none
    component := none
    labels := { Labels := [("env", "prod")] }
    path := []
    LoadSecretsByUserName := fun _ => [] }

/-- The data built from `newServiceUsageData` by `recordProcessingOrder` and by `appendData`,
whatever data is merged in. -/
inductive OrderBuilt : ServiceUsageData → Prop where
  | new : OrderBuilt newServiceUsageData
  | recordProcessingOrder (data : ServiceUsageData) (key : String) :
      OrderBuilt data → OrderBuilt (data.recordProcessingOrder key)
  | appendData (data ops : ServiceUsageData) :
      OrderBuilt data → OrderBuilt (data.appendData ops)

/-! ## Durations (`pkg/util/time.go`) -/

/-- Rounding of a rational to the nearest integer, a tie going to the even integer. -/
def roundHalfEven (x : ℚ) : ℤ :=
  if x - ⌊x⌋ < 1 / 2 then ⌊x⌋
  else if 1 / 2 < x - ⌊x⌋ then ⌊x⌋ + 1
  else if ⌊x⌋ % 2 = 0 then ⌊x⌋ else ⌊x⌋ + 1

/-- The value of Go's `float64` arithmetic: the exact result `x` of an operation or conversion
is rounded to the nearest number with 53 significant bits, a tie going to the even one
(IEEE 754 binary64; the values of this development are far inside the exponent range, so
neither overflow nor subnormal numbers occur). -/
def float64 (x : ℚ) : ℚ :=
  if x = 0 then 0
  else (roundHalfEven (x / 2 ^ (Int.log 2 |x| - 52)) : ℚ) * 2 ^ (Int.log 2 |x| - 52)

/-- The conversion `int(f)` of a `float64`: the fraction is discarded. -/
def goInt (x : ℚ) : Int :=
  if 0 ≤ x then ⌊x⌋ else ⌈x⌉

/-- `time.Second`, in nanoseconds. -/
def Second : Int := 1000000000

/-- `time.Minute`, in nanoseconds. -/
def Minute : Int := 60 * Second

/-- `time.Hour`, in nanoseconds. -/
def Hour : Int := 60 * Minute

/-- `time.Duration.Seconds()` of the Go library, for a duration `d` in nanoseconds:
`sec := d / Second; nsec := d % Second; return float64(sec) + float64(nsec)/1e9`. -/
def durationSeconds (d : Int) : ℚ :=
  float64 (float64 (d.tdiv Second) + float64 (float64 (d.tmod Second) / 1000000000))

/-- `time.Duration.Minutes()` of the Go library:
`min := d / Minute; nsec := d % Minute; return float64(min) + float64(nsec)/(60*1e9)`. -/
def durationMinutes (d : Int) : ℚ :=
  float64 (float64 (d.tdiv Minute) + float64 (float64 (d.tmod Minute) / 60000000000))

/-- `time.Duration.Hours()` of the Go library:
`hour := d / Hour; nsec := d % Hour; return float64(hour) + float64(nsec)/(60*60*1e9)`. -/
def durationHours (d : Int) : ℚ :=
  float64 (float64 (d.tdiv Hour) + float64 (float64 (d.tmod Hour) / 3600000000000))

/-- `TimeDiff`, the wrapper of a `time.Duration` (nanoseconds, an `int64`). -/
structure TimeDiff where
  duration : Int
deriving DecidableEq, Repr

/-- `NewTimeDiff(duration)`. -/
def NewTimeDiff (duration : Int) : TimeDiff :=
  { duration := duration }

/-- `d.InSeconds()`: `int(d.duration.Seconds())`. -/
def TimeDiff.InSeconds (d : TimeDiff) : Int :=
  goInt (durationSeconds d.duration)

/-- `d.InMinutes()`: `int(d.duration.Minutes())`. -/
def TimeDiff.InMinutes (d : TimeDiff) : Int :=
  goInt (durationMinutes d.duration)

/-- `d.InHours()`: `int(d.duration.Hours())`. -/
def TimeDiff.InHours (d : TimeDiff) : Int :=
  goInt (durationHours d.duration)

/-- `d.InDays()`: `int(math.Floor(float64(d.InSeconds()) / 86400))`. -/
def TimeDiff.InDays (d : TimeDiff) : Int :=
  goInt (⌊float64 (float64 (d.InSeconds : ℚ) / 86400)⌋ : ℚ)

/-- `d.Humanize()`. -/
def TimeDiff.Humanize (d : TimeDiff) : String :=
  let diffInSeconds := d.InSeconds
  if diffInSeconds ≤ 45 then Sprintf "%d sec" [FmtArg.int diffInSeconds]
  else if diffInSeconds ≤ 90 then "1 min"
  else
    let diffInMinutes := d.InMinutes
    if diffInMinutes ≤ 45 then Sprintf "%d min" [FmtArg.int diffInMinutes]
    else if diffInMinutes ≤ 90 then "1 hour"
    else
      let diffInHours := d.InHours
      if diffInHours ≤ 22 then Sprintf "%d hours" [FmtArg.int diffInHours]
      else if diffInHours ≤ 36 then "1 day"
      else
        let diffInDays := d.InDays
        Sprintf "%d days" [FmtArg.int diffInDays]

/-- The result of `Humanize` as the thresholds describe it, from the seconds `s`, the minutes
`m`, the hours `h` and the days `d` of a duration. -/
def humanizeOf (s m h d : Int) : String :=
  if s ≤ 45 then toString s ++ " sec"
  else if s ≤ 90 then "1 min"
  else if m ≤ 45 then toString m ++ " min"
  else if m ≤ 90 then "1 hour"
  else if h ≤ 22 then toString h ++ " hours"
  else if h ≤ 36 then "1 day"
  else toString d ++ " days"

/-! # Theorems -/

/-! ## Maps and sets -/

theorem mapLookup_mapStore_self {β : Type} (k : String) (v : β) (m : List (String × β)) :
    mapLookup (mapStore k v m) k = some v := by
  induction m with
  | nil => simp [mapStore, mapLookup]
  | cons hd tl ih =>
    obtain ⟨k', v'⟩ := hd
    by_cases h : k' = k
    · simp [mapStore, mapLookup, h]
    · simp [mapStore, mapLookup, h, ih]

theorem mapLookup_mapStore_ne {β : Type} (k k2 : String) (v : β) (m : List (String × β))
    (h : k2 ≠ k) : mapLookup (mapStore k v m) k2 = mapLookup m k2 := by
  induction m with
  | nil =>
    have h2 : ¬ k = k2 := fun e => h e.symm
    simp [mapStore, mapLookup, h2]
  | cons hd tl ih =>
    obtain ⟨k', v'⟩ := hd
    by_cases hk : k' = k
    · subst hk
      have h2 : ¬ k' = k2 := fun e => h e.symm
      simp [mapStore, mapLookup, h2]
    · by_cases hk2 : k' = k2
      · subst hk2
        simp [mapStore, mapLookup, hk]
      · simp [mapStore, mapLookup, hk, hk2, ih]

theorem mapStore_of_lookup_none {β : Type} (k : String) (v : β) (m : List (String × β))
    (h : mapLookup m k = none) : mapStore k v m = m ++ [(k, v)] := by
  induction m with
  | nil => rfl
  | cons hd tl ih =>
    obtain ⟨k', v'⟩ := hd
    by_cases hk : k' = k
    · simp [mapLookup, hk] at h
    · simp [mapLookup, hk] at h
      simp [mapStore, hk, ih h]

theorem mapStore_of_lookup_same {β : Type} (k : String) (v : β) (m : List (String × β))
    (h : mapLookup m k = some v) : mapStore k v m = m := by
  induction m with
  | nil => simp [mapLookup] at h
  | cons hd tl ih =>
    obtain ⟨k', v'⟩ := hd
    by_cases hk : k' = k
    · simp [mapLookup, hk] at h
      simp [mapStore, hk, h]
    · simp [mapLookup, hk] at h
      simp [mapStore, hk, ih h]

theorem mapKeys_mapStore_of_some {β : Type} (k : String) (v w : β) (m : List (String × β))
    (h : mapLookup m k = some w) : mapKeys (mapStore k v m) = mapKeys m := by
  induction m with
  | nil => simp [mapLookup] at h
  | cons hd tl ih =>
    obtain ⟨k', v'⟩ := hd
    by_cases hk : k' = k
    · simp [mapStore, mapKeys, hk]
    · simp [mapLookup, hk] at h
      have := ih h
      simp only [mapKeys] at this
      simp [mapStore, mapKeys, hk, this]

theorem mem_mapKeys_iff {β : Type} (k : String) (m : List (String × β)) :
    k ∈ mapKeys m ↔ (mapLookup m k).isSome = true := by
  induction m with
  | nil => simp [mapKeys, mapLookup]
  | cons hd tl ih =>
    obtain ⟨k', v'⟩ := hd
    by_cases hk : k' = k
    · simp [mapKeys, mapLookup, hk]
    · have hk2 : ¬ k = k' := fun e => hk e.symm
      simp only [mapKeys] at ih
      simp [mapKeys, mapLookup, hk, hk2, ih]

theorem mem_mapKeys_mapStore {β : Type} (k k2 : String) (v : β) (m : List (String × β)) :
    k2 ∈ mapKeys (mapStore k v m) ↔ k2 = k ∨ k2 ∈ mapKeys m := by
  rw [mem_mapKeys_iff, mem_mapKeys_iff]
  by_cases h : k2 = k
  · subst h
    simp [mapLookup_mapStore_self]
  · simp [mapLookup_mapStore_ne k k2 v m h, h]

theorem mem_setAdd (s : List String) (k x : String) : x ∈ setAdd s k ↔ x ∈ s ∨ x = k := by
  unfold setAdd
  by_cases h : k ∈ s
  · simp only [h, if_true]
    constructor
    · intro hx; exact Or.inl hx
    · rintro (hx | hx)
      · exact hx
      · subst hx; exact h
  · simp [h]

theorem mem_foldl_setAdd (l s : List String) (x : String) :
    x ∈ l.foldl setAdd s ↔ x ∈ s ∨ x ∈ l := by
  induction l generalizing s with
  | nil => simp
  | cons hd tl ih =>
    simp only [List.foldl_cons, ih, mem_setAdd, List.mem_cons]
    tauto

/-! ## getComponentInstanceEntry and updateEntry -/

theorem getComponentInstanceEntry_of_some (data : ServiceUsageData) (key : String)
    (inst : ComponentInstance) (h : mapLookup data.ComponentInstanceMap key = some inst) :
    data.getComponentInstanceEntry key = (data, inst) := by
  simp [ServiceUsageData.getComponentInstanceEntry, h]

theorem getComponentInstanceEntry_of_none (data : ServiceUsageData) (key : String)
    (h : mapLookup data.ComponentInstanceMap key = none) :
    data.getComponentInstanceEntry key =
      ({ data with
          ComponentInstanceMap := data.ComponentInstanceMap ++ [(key, newComponentInstance key)] },
        newComponentInstance key) := by
  simp [ServiceUsageData.getComponentInstanceEntry, h, mapStore_of_lookup_none]

/-- The instance that an update through `getComponentInstanceEntry(key)` starts from. -/
theorem updateEntry_lookup_self (data : ServiceUsageData) (key : String)
    (f : ComponentInstance → ComponentInstance) :
    mapLookup (data.updateEntry key f).ComponentInstanceMap key =
      some (f ((mapLookup data.ComponentInstanceMap key).getD (newComponentInstance key))) := by
  unfold ServiceUsageData.updateEntry
  cases h : mapLookup data.ComponentInstanceMap key with
  | none => simp [getComponentInstanceEntry_of_none _ _ h, mapLookup_mapStore_self]
  | some inst => simp [getComponentInstanceEntry_of_some _ _ _ h, mapLookup_mapStore_self]

theorem updateEntry_lookup_ne (data : ServiceUsageData) (key k : String)
    (f : ComponentInstance → ComponentInstance) (hk : k ≠ key) :
    mapLookup (data.updateEntry key f).ComponentInstanceMap k =
      mapLookup data.ComponentInstanceMap k := by
  unfold ServiceUsageData.updateEntry
  cases h : mapLookup data.ComponentInstanceMap key with
  | none =>
    simp only [ServiceUsageData.getComponentInstanceEntry, h]
    rw [mapLookup_mapStore_ne _ _ _ _ hk, mapLookup_mapStore_ne _ _ _ _ hk]
  | some inst =>
    simp only [getComponentInstanceEntry_of_some _ _ _ h]
    rw [mapLookup_mapStore_ne _ _ _ _ hk]

theorem updateEntry_orderHas (data : ServiceUsageData) (key : String)
    (f : ComponentInstance → ComponentInstance) :
    (data.updateEntry key f).componentProcessingOrderHas = data.componentProcessingOrderHas := by
  unfold ServiceUsageData.updateEntry ServiceUsageData.getComponentInstanceEntry
  cases mapLookup data.ComponentInstanceMap key <;> rfl

theorem updateEntry_order (data : ServiceUsageData) (key : String)
    (f : ComponentInstance → ComponentInstance) :
    (data.updateEntry key f).ComponentProcessingOrder = data.ComponentProcessingOrder := by
  unfold ServiceUsageData.updateEntry ServiceUsageData.getComponentInstanceEntry
  cases mapLookup data.ComponentInstanceMap key <;> rfl

theorem mem_mapKeys_updateEntry (data : ServiceUsageData) (key k : String)
    (f : ComponentInstance → ComponentInstance) :
    k ∈ mapKeys (data.updateEntry key f).ComponentInstanceMap ↔
      k = key ∨ k ∈ mapKeys data.ComponentInstanceMap := by
  rw [mem_mapKeys_iff, mem_mapKeys_iff]
  by_cases h : k = key
  · subst h
    simp [updateEntry_lookup_self]
  · simp [updateEntry_lookup_ne _ _ _ _ h, h]

/-- C2: `getComponentInstanceEntry` creates an instance on first reference only. After the
call the map has an entry for `key`, and it is the returned one. If an entry existed before,
the returned entry is that entry and the data is unchanged. If none existed, the returned
entry is a fresh instance for `key` and the map is the old map with that one binding added.
Entries under every other key are as before, and so are the order fields. -/
theorem C2_getComponentInstanceEntry_first_reference (data : ServiceUsageData) (key : String) :
    mapLookup (data.getComponentInstanceEntry key).1.ComponentInstanceMap key =
        some (data.getComponentInstanceEntry key).2 ∧
      (∀ inst, mapLookup data.ComponentInstanceMap key = some inst →
        (data.getComponentInstanceEntry key).2 = inst ∧
          (data.getComponentInstanceEntry key).1 = data) ∧
      (mapLookup data.ComponentInstanceMap key = none →
        (data.getComponentInstanceEntry key).2 = newComponentInstance key ∧
          (data.getComponentInstanceEntry key).1.ComponentInstanceMap =
            data.ComponentInstanceMap ++ [(key, newComponentInstance key)] ∧
          (data.getComponentInstanceEntry key).1.ComponentInstanceMap.length =
            data.ComponentInstanceMap.length + 1) ∧
      (∀ k, k ≠ key →
        mapLookup (data.getComponentInstanceEntry key).1.ComponentInstanceMap k =
          mapLookup data.ComponentInstanceMap k) ∧
      (data.getComponentInstanceEntry key).1.componentProcessingOrderHas =
        data.componentProcessingOrderHas ∧
      (data.getComponentInstanceEntry key).1.ComponentProcessingOrder =
        data.ComponentProcessingOrder := by
  cases h : mapLookup data.ComponentInstanceMap key with
  | some inst0 =>
    rw [getComponentInstanceEntry_of_some _ _ _ h]
    refine ⟨h, ?_, ?_, ?_, rfl, rfl⟩
    · intro inst hi
      exact ⟨Option.some.inj hi, rfl⟩
    · intro hn
      cases hn
    · intro k _
      rfl
  | none =>
    rw [getComponentInstanceEntry_of_none _ _ h]
    refine ⟨?_, ?_, ?_, ?_, rfl, rfl⟩
    · show mapLookup (data.ComponentInstanceMap ++ [(key, newComponentInstance key)]) key = _
      rw [← mapStore_of_lookup_none _ _ _ h, mapLookup_mapStore_self]
    · intro inst hi
      cases hi
    · intro _
      exact ⟨rfl, rfl, by simp⟩
    · intro k hk
      show mapLookup (data.ComponentInstanceMap ++ [(key, newComponentInstance key)]) k = _
      rw [← mapStore_of_lookup_none _ _ _ h, mapLookup_mapStore_ne _ _ _ _ hk]

/-! ## Edges -/

theorem string_length_pos_iff (s : String) : s.length > 0 ↔ s ≠ "" := by
  constructor
  · intro h e
    subst e
    simp at h
  · intro h
    rcases Nat.eq_zero_or_pos s.length with h0 | h0
    · exfalso
      apply h
      have : s.data = [] := List.length_eq_zero.mp h0
      exact String.ext this
    · exact h0

theorem edgesOut_updateEntry (data : ServiceUsageData) (key k : String)
    (f : ComponentInstance → ComponentInstance) :
    (data.updateEntry key f).edgesOut k =
      if k = key then
        (f ((mapLookup data.ComponentInstanceMap key).getD (newComponentInstance key))).EdgesOut
      else data.edgesOut k := by
  unfold ServiceUsageData.edgesOut
  by_cases h : k = key
  · subst h
    simp [updateEntry_lookup_self]
  · simp [updateEntry_lookup_ne _ _ _ _ h, h]

theorem edgesIn_updateEntry (data : ServiceUsageData) (key k : String)
    (f : ComponentInstance → ComponentInstance) :
    (data.updateEntry key f).edgesIn k =
      if k = key then
        (f ((mapLookup data.ComponentInstanceMap key).getD (newComponentInstance key))).EdgesIn
      else data.edgesIn k := by
  unfold ServiceUsageData.edgesIn
  by_cases h : k = key
  · subst h
    simp [updateEntry_lookup_self]
  · simp [updateEntry_lookup_ne _ _ _ _ h, h]

theorem getD_new_edgesOut (data : ServiceUsageData) (key : String) :
    ((mapLookup data.ComponentInstanceMap key).getD (newComponentInstance key)).EdgesOut =
      data.edgesOut key := by
  unfold ServiceUsageData.edgesOut
  cases mapLookup data.ComponentInstanceMap key <;> rfl

theorem getD_new_edgesIn (data : ServiceUsageData) (key : String) :
    ((mapLookup data.ComponentInstanceMap key).getD (newComponentInstance key)).EdgesIn =
      data.edgesIn key := by
  unfold ServiceUsageData.edgesIn
  cases mapLookup data.ComponentInstanceMap key <;> rfl

theorem storeEdge_of_nonempty (data : ServiceUsageData) (x y : String) (hx : x ≠ "")
    (hy : y ≠ "") :
    data.storeEdge x y =
      (data.updateEntry x (fun i => i.addEdgeOut y)).updateEntry y (fun i => i.addEdgeIn x) := by
  have h : x.length > 0 ∧ y.length > 0 :=
    ⟨(string_length_pos_iff x).mpr hx, (string_length_pos_iff y).mpr hy⟩
  simp only [ServiceUsageData.storeEdge, h, and_self, if_true]

theorem storeEdge_of_empty (data : ServiceUsageData) (x y : String) (h : x = "" ∨ y = "") :
    data.storeEdge x y = data := by
  have h2 : ¬ (x.length > 0 ∧ y.length > 0) := by
    rintro ⟨hx, hy⟩
    rcases h with h | h
    · exact (string_length_pos_iff x).mp hx h
    · exact (string_length_pos_iff y).mp hy h
  simp only [ServiceUsageData.storeEdge, h2, if_false]

theorem mem_edgesOut_storeEdge (data : ServiceUsageData) (x y a b : String) (hx : x ≠ "")
    (hy : y ≠ "") :
    b ∈ (data.storeEdge x y).edgesOut a ↔ b ∈ data.edgesOut a ∨ (a = x ∧ b = y) := by
  rw [storeEdge_of_nonempty _ _ _ hx hy, edgesOut_updateEntry]
  by_cases hay : a = y
  · subst hay
    simp only [if_true, ComponentInstance.addEdgeIn, getD_new_edgesOut, edgesOut_updateEntry]
    by_cases hax : a = x
    · subst hax
      simp [ComponentInstance.addEdgeOut, getD_new_edgesOut, mem_setAdd]
    · simp [hax]
  · simp only [hay, if_false, edgesOut_updateEntry]
    by_cases hax : a = x
    · subst hax
      simp [ComponentInstance.addEdgeOut, getD_new_edgesOut, mem_setAdd]
    · simp [hax]

theorem mem_edgesIn_storeEdge (data : ServiceUsageData) (x y a b : String) (hx : x ≠ "")
    (hy : y ≠ "") :
    a ∈ (data.storeEdge x y).edgesIn b ↔ a ∈ data.edgesIn b ∨ (a = x ∧ b = y) := by
  rw [storeEdge_of_nonempty _ _ _ hx hy, edgesIn_updateEntry]
  by_cases hby : b = y
  · subst hby
    simp only [if_true, ComponentInstance.addEdgeIn, getD_new_edgesIn, edgesIn_updateEntry,
      mem_setAdd]
    by_cases hbx : b = x
    · subst hbx
      simp [ComponentInstance.addEdgeOut, getD_new_edgesIn]
    · simp [hbx]
  · simp only [hby, if_false, edgesIn_updateEntry, and_false, or_false]
    by_cases hbx : b = x
    · subst hbx
      simp [ComponentInstance.addEdgeOut, getD_new_edgesIn]
    · simp [hbx]

theorem storeEdge_symmetric (data : ServiceUsageData) (x y : String)
    (h : ∀ a b, b ∈ data.edgesOut a ↔ a ∈ data.edgesIn b) :
    ∀ a b, b ∈ (data.storeEdge x y).edgesOut a ↔ a ∈ (data.storeEdge x y).edgesIn b := by
  intro a b
  by_cases he : x = "" ∨ y = ""
  · rw [storeEdge_of_empty _ _ _ he]
    exact h a b
  · have hx : x ≠ "" := fun e => he (Or.inl e)
    have hy : y ≠ "" := fun e => he (Or.inr e)
    rw [mem_edgesOut_storeEdge _ _ _ _ _ hx hy, mem_edgesIn_storeEdge _ _ _ _ _ hx hy, h a b]

theorem storeEdges_symmetric (calls : List (String × String)) (data : ServiceUsageData)
    (h : ∀ a b, b ∈ data.edgesOut a ↔ a ∈ data.edgesIn b) :
    ∀ a b, b ∈ (data.storeEdges calls).edgesOut a ↔ a ∈ (data.storeEdges calls).edgesIn b := by
  induction calls generalizing data with
  | nil => exact h
  | cons c rest ih =>
    exact ih (data.storeEdge c.1 c.2) (storeEdge_symmetric data c.1 c.2 h)

/-- C3: the instance graph keeps in-edges and out-edges symmetric. In the data reached from
`newServiceUsageData` by any sequence of `storeEdge` calls, `b` is an out-edge of the instance
at `a` if and only if `a` is an in-edge of the instance at `b`; and after `storeEdge(x, y)`
with both keys non-empty, on any data, both instances exist, `y` is an out-edge of the
instance at `x` and `x` is an in-edge of the instance at `y`. -/
theorem C3_storeEdge_edges_symmetric (calls : List (String × String)) (data : ServiceUsageData)
    (x y : String) :
    (∀ a b, b ∈ (newServiceUsageData.storeEdges calls).edgesOut a ↔
        a ∈ (newServiceUsageData.storeEdges calls).edgesIn b) ∧
      (x ≠ "" → y ≠ "" →
        (∃ ix, mapLookup (data.storeEdge x y).ComponentInstanceMap x = some ix ∧
            y ∈ ix.EdgesOut) ∧
          (∃ iy, mapLookup (data.storeEdge x y).ComponentInstanceMap y = some iy ∧
            x ∈ iy.EdgesIn)) := by
  refine ⟨storeEdges_symmetric calls newServiceUsageData ?_, ?_⟩
  · intro a b
    simp [ServiceUsageData.edgesOut, ServiceUsageData.edgesIn, newServiceUsageData, mapLookup]
  · intro hx hy
    have ho : y ∈ (data.storeEdge x y).edgesOut x :=
      (mem_edgesOut_storeEdge data x y x y hx hy).mpr (Or.inr ⟨rfl, rfl⟩)
    have hi : x ∈ (data.storeEdge x y).edgesIn y :=
      (mem_edgesIn_storeEdge data x y x y hx hy).mpr (Or.inr ⟨rfl, rfl⟩)
    unfold ServiceUsageData.edgesOut at ho
    unfold ServiceUsageData.edgesIn at hi
    constructor
    · cases hl : mapLookup (data.storeEdge x y).ComponentInstanceMap x with
      | none => simp [hl] at ho
      | some ix =>
        rw [hl] at ho
        exact ⟨ix, rfl, ho⟩
    · cases hl : mapLookup (data.storeEdge x y).ComponentInstanceMap y with
      | none => simp [hl] at hi
      | some iy =>
        rw [hl] at hi
        exact ⟨iy, rfl, hi⟩

/-! ## Processing order -/

theorem firstNew_cons (seen rest : List String) (k : String) :
    firstNew seen (k :: rest) =
      if k ∈ seen then firstNew seen rest else k :: firstNew (seen ++ [k]) rest := by
  rw [firstNew]

theorem mem_firstNew (l seen : List String) (k : String) :
    k ∈ firstNew seen l ↔ k ∈ l ∧ k ∉ seen := by
  induction l generalizing seen with
  | nil => simp [firstNew]
  | cons hd tl ih =>
    unfold firstNew
    by_cases h : hd ∈ seen
    · simp only [h, if_true, ih, List.mem_cons]
      constructor
      · rintro ⟨h1, h2⟩
        exact ⟨Or.inr h1, h2⟩
      · rintro ⟨h1 | h1, h2⟩
        · subst h1
          exact absurd h h2
        · exact ⟨h1, h2⟩
    · simp only [h, if_false, List.mem_cons, ih, List.mem_append, List.mem_singleton]
      constructor
      · rintro (h1 | ⟨h1, h2⟩)
        · subst h1
          exact ⟨Or.inl rfl, h⟩
        · exact ⟨Or.inr h1, fun hs => h2 (Or.inl hs)⟩
      · rintro ⟨h1 | h1, h2⟩
        · exact Or.inl h1
        · by_cases hk : k = hd
          · exact Or.inl hk
          · refine Or.inr ⟨h1, ?_⟩
            intro hs
            simp [h2, hk] at hs

theorem nodup_firstNew (l seen : List String) : (firstNew seen l).Nodup := by
  induction l generalizing seen with
  | nil => simp [firstNew]
  | cons hd tl ih =>
    unfold firstNew
    by_cases h : hd ∈ seen
    · simp only [h, if_true]
      exact ih seen
    · simp only [h, if_false, List.nodup_cons]
      refine ⟨?_, ih _⟩
      rw [mem_firstNew]
      rintro ⟨_, h2⟩
      exact h2 (by simp)

theorem sublist_firstNew (l seen : List String) : (firstNew seen l).Sublist l := by
  induction l generalizing seen with
  | nil => simp [firstNew]
  | cons hd tl ih =>
    unfold firstNew
    by_cases h : hd ∈ seen
    · simp only [h, if_true]
      exact (ih seen).cons hd
    · simp only [h, if_false]
      exact (ih _).cons₂ hd

theorem firstNew_of_subset (l seen : List String) (h : ∀ k ∈ l, k ∈ seen) :
    firstNew seen l = [] := by
  induction l with
  | nil => rfl
  | cons hd tl ih =>
    unfold firstNew
    have h1 : hd ∈ seen := h hd (by simp)
    simp only [h1, if_true]
    exact ih (fun k hk => h k (by simp [hk]))

theorem recordProcessingOrder_of_has (data : ServiceUsageData) (key : String)
    (h : data.orderHas key = true) : data.recordProcessingOrder key = data := by
  simp [ServiceUsageData.recordProcessingOrder, h]

theorem recordProcessingOrder_of_not_has (data : ServiceUsageData) (key : String)
    (h : data.orderHas key = false) :
    data.recordProcessingOrder key =
      { data with
        componentProcessingOrderHas := mapStore key true data.componentProcessingOrderHas
        ComponentProcessingOrder := data.ComponentProcessingOrder ++ [key] } := by
  simp [ServiceUsageData.recordProcessingOrder, h]

theorem recordProcessingOrder_map (data : ServiceUsageData) (key : String) :
    (data.recordProcessingOrder key).ComponentInstanceMap = data.ComponentInstanceMap := by
  unfold ServiceUsageData.recordProcessingOrder
  split <;> rfl

theorem orderHas_recordProcessingOrder (data : ServiceUsageData) (key k : String) :
    (data.recordProcessingOrder key).orderHas k = (decide (k = key) || data.orderHas k) := by
  cases h : data.orderHas key with
  | true =>
    rw [recordProcessingOrder_of_has _ _ h]
    by_cases hk : k = key
    · subst hk
      simp [h]
    · simp [hk]
  | false =>
    rw [recordProcessingOrder_of_not_has _ _ h]
    by_cases hk : k = key
    · subst hk
      simp [ServiceUsageData.orderHas, mapLookup_mapStore_self]
    · simp [ServiceUsageData.orderHas, mapLookup_mapStore_ne _ _ _ _ hk, hk]

theorem recordProcessingOrder_consistent (data : ServiceUsageData) (key : String)
    (h : data.orderConsistent) : (data.recordProcessingOrder key).orderConsistent := by
  intro k
  rw [orderHas_recordProcessingOrder]
  cases hh : data.orderHas key with
  | true =>
    rw [recordProcessingOrder_of_has _ _ hh]
    by_cases hk : k = key
    · subst hk
      simp [(h k).mp hh]
    · simp [hk, h k]
  | false =>
    rw [recordProcessingOrder_of_not_has _ _ hh]
    by_cases hk : k = key
    · subst hk
      simp
    · simp [hk, h k]

theorem recordProcessingOrder_order (data : ServiceUsageData) (key : String)
    (h : data.orderConsistent) :
    (data.recordProcessingOrder key).ComponentProcessingOrder =
      data.ComponentProcessingOrder ++
        (if key ∈ data.ComponentProcessingOrder then [] else [key]) := by
  cases hh : data.orderHas key with
  | true =>
    rw [recordProcessingOrder_of_has _ _ hh]
    simp [(h key).mp hh]
  | false =>
    rw [recordProcessingOrder_of_not_has _ _ hh]
    have : key ∉ data.ComponentProcessingOrder := by
      intro hm
      have := (h key).mpr hm
      rw [hh] at this
      cases this
    simp [this]

theorem foldl_recordProcessingOrder (keys : List String) (data : ServiceUsageData)
    (h : data.orderConsistent) :
    (keys.foldl (fun d key => d.recordProcessingOrder key) data).orderConsistent ∧
      (keys.foldl (fun d key => d.recordProcessingOrder key) data).ComponentProcessingOrder =
        data.ComponentProcessingOrder ++ firstNew data.ComponentProcessingOrder keys ∧
      (keys.foldl (fun d key => d.recordProcessingOrder key) data).ComponentInstanceMap =
        data.ComponentInstanceMap := by
  induction keys generalizing data with
  | nil => simp [firstNew, h]
  | cons hd tl ih =>
    simp only [List.foldl_cons]
    obtain ⟨h1, h2, h3⟩ := ih (data.recordProcessingOrder hd)
      (recordProcessingOrder_consistent data hd h)
    refine ⟨h1, ?_, ?_⟩
    · rw [h2, recordProcessingOrder_order data hd h, firstNew_cons]
      by_cases hm : hd ∈ data.ComponentProcessingOrder
      · simp [hm]
      · simp [hm]
    · rw [h3, recordProcessingOrder_map]

theorem foldl_updateEntry_order (entries : List (String × ComponentInstance))
    (data : ServiceUsageData) :
    (entries.foldl (fun d kv => d.updateEntry kv.1 (fun i => i.appendData kv.2))
        data).componentProcessingOrderHas = data.componentProcessingOrderHas ∧
      (entries.foldl (fun d kv => d.updateEntry kv.1 (fun i => i.appendData kv.2))
        data).ComponentProcessingOrder = data.ComponentProcessingOrder := by
  induction entries generalizing data with
  | nil => exact ⟨rfl, rfl⟩
  | cons hd tl ih =>
    simp only [List.foldl_cons]
    obtain ⟨h1, h2⟩ := ih (data.updateEntry hd.1 (fun i => i.appendData hd.2))
    exact ⟨h1.trans (updateEntry_orderHas _ _ _), h2.trans (updateEntry_order _ _ _)⟩

theorem foldl_updateEntry_consistent (entries : List (String × ComponentInstance))
    (data : ServiceUsageData) (h : data.orderConsistent) :
    (entries.foldl (fun d kv => d.updateEntry kv.1 (fun i => i.appendData kv.2))
        data).orderConsistent := by
  obtain ⟨h1, h2⟩ := foldl_updateEntry_order entries data
  intro k
  unfold ServiceUsageData.orderHas
  rw [h1, h2]
  exact h k

/-- C4: merging a sub-resolution preserves and extends the processing order. For data whose
`componentProcessingOrderHas` marks exactly the keys of its `ComponentProcessingOrder`, after
`data.appendData(ops)` the order is the old order followed by the keys of the order of `ops`
that were not in the old order, in the order of their first appearance in `ops`, each once:
the added keys have no duplicate, are exactly the keys of the order of `ops` missing from the
old order, and appear in the same relative order as in `ops`. -/
theorem C4_appendData_extends_processing_order (data ops : ServiceUsageData)
    (hdata : data.orderConsistent) :
    (data.appendData ops).ComponentProcessingOrder =
        data.ComponentProcessingOrder ++
          firstNew data.ComponentProcessingOrder ops.ComponentProcessingOrder ∧
      (firstNew data.ComponentProcessingOrder ops.ComponentProcessingOrder).Nodup ∧
      (∀ k, k ∈ firstNew data.ComponentProcessingOrder ops.ComponentProcessingOrder ↔
        k ∈ ops.ComponentProcessingOrder ∧ k ∉ data.ComponentProcessingOrder) ∧
      (firstNew data.ComponentProcessingOrder ops.ComponentProcessingOrder).Sublist
        ops.ComponentProcessingOrder := by
  refine ⟨?_, nodup_firstNew _ _, fun k => mem_firstNew _ _ k, sublist_firstNew _ _⟩
  unfold ServiceUsageData.appendData
  have hc := foldl_updateEntry_consistent ops.ComponentInstanceMap data hdata
  have ho := (foldl_updateEntry_order ops.ComponentInstanceMap data).2
  have := (foldl_recordProcessingOrder ops.ComponentProcessingOrder _ hc).2.1
  simp only [this, ho]

/-- C4 at a concrete merge: the data with order `[a]` is consistent, and merging the order
`[b, a, c, b]` into it gives `[a, b, c]`. -/
theorem C4_appendData_extends_processing_order_witness :
    (ServiceUsageData.mk [] [("a", true)] ["a"]).orderConsistent ∧
      ((ServiceUsageData.mk [] [("a", true)] ["a"]).appendData
        (ServiceUsageData.mk [] [("b", true), ("a", true), ("c", true)]
          ["b", "a", "c", "b"])).ComponentProcessingOrder = ["a", "b", "c"] := by
  have hdata : (ServiceUsageData.mk [] [("a", true)] ["a"]).orderConsistent := by
    intro k
    by_cases hk : k = "a"
    · subst hk
      decide
    · have hk2 : ¬ "a" = k := fun e => hk e.symm
      simp [ServiceUsageData.orderHas, mapLookup, hk, hk2]
  have h := (C4_appendData_extends_processing_order (ServiceUsageData.mk [] [("a", true)] ["a"])
    (ServiceUsageData.mk [] [("b", true), ("a", true), ("c", true)] ["b", "a", "c", "b"])
    hdata).1
  refine ⟨hdata, ?_⟩
  rw [h]
  decide

/-! ## Merging instances -/

theorem length_mapStore_of_some {β : Type} (k : String) (v w : β) (m : List (String × β))
    (h : mapLookup m k = some w) : (mapStore k v m).length = m.length := by
  have := congrArg List.length (mapKeys_mapStore_of_some k v w m h)
  simpa [mapKeys] using this

theorem updateEntry_length_of_mem (data : ServiceUsageData) (key : String)
    (f : ComponentInstance → ComponentInstance)
    (h : key ∈ mapKeys data.ComponentInstanceMap) :
    (data.updateEntry key f).ComponentInstanceMap.length = data.ComponentInstanceMap.length := by
  rw [mem_mapKeys_iff] at h
  cases hl : mapLookup data.ComponentInstanceMap key with
  | none => simp [hl] at h
  | some inst =>
    unfold ServiceUsageData.updateEntry
    simp only [getComponentInstanceEntry_of_some _ _ _ hl]
    exact length_mapStore_of_some _ _ _ _ hl

theorem foldl_updateEntry_keys (entries : List (String × ComponentInstance))
    (data : ServiceUsageData) (k : String) :
    k ∈ mapKeys (entries.foldl (fun d kv => d.updateEntry kv.1 (fun i => i.appendData kv.2))
        data).ComponentInstanceMap ↔
      k ∈ mapKeys data.ComponentInstanceMap ∨ k ∈ mapKeys entries := by
  induction entries generalizing data with
  | nil => simp [mapKeys]
  | cons hd tl ih =>
    simp only [List.foldl_cons]
    rw [ih, mem_mapKeys_updateEntry]
    simp only [mapKeys, List.map_cons, List.mem_cons]
    tauto

theorem foldl_updateEntry_length (entries : List (String × ComponentInstance))
    (data : ServiceUsageData) (h : ∀ k ∈ mapKeys entries, k ∈ mapKeys data.ComponentInstanceMap) :
    (entries.foldl (fun d kv => d.updateEntry kv.1 (fun i => i.appendData kv.2))
        data).ComponentInstanceMap.length = data.ComponentInstanceMap.length := by
  induction entries generalizing data with
  | nil => rfl
  | cons hd tl ih =>
    simp only [List.foldl_cons]
    have hhd : hd.1 ∈ mapKeys data.ComponentInstanceMap := h hd.1 (by simp [mapKeys])
    rw [ih, updateEntry_length_of_mem _ _ _ hhd]
    intro k hk
    rw [mem_mapKeys_updateEntry]
    exact Or.inr (h k (by simp only [mapKeys, List.map_cons, List.mem_cons] at hk ⊢; exact Or.inr hk))

theorem foldl_recordProcessingOrder_of_has (keys : List String) (data : ServiceUsageData)
    (h : ∀ k ∈ keys, data.orderHas k = true) :
    keys.foldl (fun d key => d.recordProcessingOrder key) data = data := by
  induction keys with
  | nil => rfl
  | cons hd tl ih =>
    simp only [List.foldl_cons]
    rw [recordProcessingOrder_of_has _ _ (h hd (by simp))]
    exact ih (fun k hk => h k (by simp [hk]))

theorem foldl_recordProcessingOrder_map (keys : List String) (data : ServiceUsageData) :
    (keys.foldl (fun d key => d.recordProcessingOrder key) data).ComponentInstanceMap =
      data.ComponentInstanceMap := by
  induction keys generalizing data with
  | nil => rfl
  | cons hd tl ih =>
    simp only [List.foldl_cons]
    rw [ih, recordProcessingOrder_map]

/-- C5: shared instances converge on merge. After `data.appendData(ops)` the key set of the
instance map is the union of the key sets of `data` and of `ops`. When every instance key of
`ops` is a key of the instance map of `data` and every key of the processing order of `ops` is
present in the processing order of `data`, the number of instances and the processing order
of `data` are the same as before the merge. Presence in the order is taken as the code tells
it, by the mark in `componentProcessingOrderHas`; for data whose marks agree with its order
this is membership in `ComponentProcessingOrder`, which the last part states. -/
theorem C5_appendData_shared_instances_converge (data ops : ServiceUsageData) :
    (∀ k, k ∈ mapKeys (data.appendData ops).ComponentInstanceMap ↔
        k ∈ mapKeys data.ComponentInstanceMap ∨ k ∈ mapKeys ops.ComponentInstanceMap) ∧
      ((∀ k ∈ mapKeys ops.ComponentInstanceMap, k ∈ mapKeys data.ComponentInstanceMap) →
        (∀ k ∈ ops.ComponentProcessingOrder, data.orderHas k = true) →
        (data.appendData ops).ComponentInstanceMap.length = data.ComponentInstanceMap.length ∧
          (data.appendData ops).ComponentProcessingOrder = data.ComponentProcessingOrder) ∧
      (data.orderConsistent →
        (∀ k ∈ mapKeys ops.ComponentInstanceMap, k ∈ mapKeys data.ComponentInstanceMap) →
        (∀ k ∈ ops.ComponentProcessingOrder, k ∈ data.ComponentProcessingOrder) →
        (data.appendData ops).ComponentInstanceMap.length = data.ComponentInstanceMap.length ∧
          (data.appendData ops).ComponentProcessingOrder = data.ComponentProcessingOrder) := by
  have main : (∀ k ∈ mapKeys ops.ComponentInstanceMap, k ∈ mapKeys data.ComponentInstanceMap) →
      (∀ k ∈ ops.ComponentProcessingOrder, data.orderHas k = true) →
      (data.appendData ops).ComponentInstanceMap.length = data.ComponentInstanceMap.length ∧
        (data.appendData ops).ComponentProcessingOrder = data.ComponentProcessingOrder := by
    intro hkeys horder
    unfold ServiceUsageData.appendData
    have hhas : ∀ k ∈ ops.ComponentProcessingOrder,
        (ops.ComponentInstanceMap.foldl
          (fun d kv => d.updateEntry kv.1 (fun i => i.appendData kv.2)) data).orderHas k = true := by
      intro k hk
      unfold ServiceUsageData.orderHas
      rw [(foldl_updateEntry_order ops.ComponentInstanceMap data).1]
      exact horder k hk
    simp only [foldl_recordProcessingOrder_of_has _ _ hhas]
    exact ⟨foldl_updateEntry_length _ _ hkeys, (foldl_updateEntry_order _ _).2⟩
  refine ⟨?_, main, ?_⟩
  · intro k
    unfold ServiceUsageData.appendData
    simp only [foldl_recordProcessingOrder_map]
    exact foldl_updateEntry_keys _ _ k
  · intro hc hkeys horder
    exact main hkeys (fun k hk => (hc k).mpr (horder k hk))

/-- C5 at a concrete merge: a resolution with two instances and one edge, merged with itself,
keeps its two instances and its order. -/
theorem C5_appendData_shared_instances_converge_witness :
    (((newServiceUsageData.storeEdge "s" "c").recordProcessingOrder "s").recordProcessingOrder
        "c").ComponentInstanceMap.length = 2 ∧
      ((((newServiceUsageData.storeEdge "s" "c").recordProcessingOrder "s").recordProcessingOrder
        "c").appendData
        (((newServiceUsageData.storeEdge "s" "c").recordProcessingOrder "s").recordProcessingOrder
          "c")).ComponentInstanceMap.length = 2 ∧
      ((((newServiceUsageData.storeEdge "s" "c").recordProcessingOrder "s").recordProcessingOrder
        "c").appendData
        (((newServiceUsageData.storeEdge "s" "c").recordProcessingOrder "s").recordProcessingOrder
          "c")).ComponentProcessingOrder = ["s", "c"] := by
  have h := (C5_appendData_shared_instances_converge
    (((newServiceUsageData.storeEdge "s" "c").recordProcessingOrder "s").recordProcessingOrder "c")
    (((newServiceUsageData.storeEdge "s" "c").recordProcessingOrder "s").recordProcessingOrder
      "c")).2.1 (by decide) (by decide)
  refine ⟨by decide, ?_, ?_⟩
  · rw [h.1]
    decide
  · rw [h.2]
    decide

/-! ## Dependencies of an instance -/

/-- C6: `recordResolvedAndDependency` attaches the dependency to the instance. After the
call an instance exists at `key`; it is the instance held before (a fresh one when there was
none) marked resolved and with `dependency.ID` added to its dependency ids, so that it
contains `dependency.ID` and every id held before. The instances under all other keys, the
processing order and its index are unchanged. -/
theorem C6_recordResolvedAndDependency_attaches (data : ServiceUsageData) (key : String)
    (dependency : DependencyRef) :
    (∃ inst, mapLookup (data.recordResolvedAndDependency key dependency).ComponentInstanceMap key =
          some inst ∧
        inst.Resolved = true ∧
        dependency.ID ∈ inst.DependencyIds ∧
        (∀ old, mapLookup data.ComponentInstanceMap key = some old →
          ∀ id ∈ old.DependencyIds, id ∈ inst.DependencyIds) ∧
        inst = { (mapLookup data.ComponentInstanceMap key).getD (newComponentInstance key) with
          Resolved := true
          DependencyIds := setAdd
            ((mapLookup data.ComponentInstanceMap key).getD (newComponentInstance key)).DependencyIds
            dependency.ID }) ∧
      (∀ k, k ≠ key →
        mapLookup (data.recordResolvedAndDependency key dependency).ComponentInstanceMap k =
          mapLookup data.ComponentInstanceMap k) ∧
      (data.recordResolvedAndDependency key dependency).ComponentProcessingOrder =
        data.ComponentProcessingOrder ∧
      (data.recordResolvedAndDependency key dependency).componentProcessingOrderHas =
        data.componentProcessingOrderHas := by
  unfold ServiceUsageData.recordResolvedAndDependency
  refine ⟨?_, ?_, ?_, ?_⟩
  · refine ⟨_, updateEntry_lookup_self _ _ _, ?_⟩
    simp only [updateEntry_lookup_self, Option.getD_some, ComponentInstance.addDependency,
      ComponentInstance.setResolved, mem_setAdd, or_true, true_and]
    constructor
    · intro old hold id hid
      rw [hold]
      exact Or.inl hid
    · trivial
  · intro k hk
    rw [updateEntry_lookup_ne _ _ _ _ hk, updateEntry_lookup_ne _ _ _ _ hk]
  · rw [updateEntry_order, updateEntry_order]
  · rw [updateEntry_orderHas, updateEntry_orderHas]

/-! ## Processing order and edges -/

theorem precedes_append (l l2 : List String) (a k : String) (h : precedes l a k) :
    precedes (l ++ l2) a k := by
  unfold precedes at *
  induction l with
  | nil => simp at h
  | cons x xs ih =>
    by_cases hx : x = k
    · simp [List.takeWhile, hx] at h
    · simp only [List.cons_append, List.takeWhile_cons, hx, ne_eq, not_false_eq_true,
        decide_True, if_true, List.mem_cons] at h ⊢
      rcases h with h | h
      · exact Or.inl h
      · exact Or.inr (ih h)

theorem precedes_append_of_mem (l l2 : List String) (a k : String) (ha : a ∈ l) (hk : k ∉ l) :
    precedes (l ++ l2) a k := by
  apply precedes_append
  unfold precedes
  induction l with
  | nil => simp at ha
  | cons x xs ih =>
    have hx : x ≠ k := fun e => hk (by simp [e])
    have hk2 : k ∉ xs := fun e => hk (by simp [e])
    simp only [List.takeWhile_cons, hx, ne_eq, not_false_eq_true, decide_True, if_true,
      List.mem_cons] at ha ⊢
    rcases ha with h | h
    · exact Or.inl h
    · exact Or.inr (ih h hk2)

theorem precedes_append_right (l l2 : List String) (a k : String) (hk : k ∉ l)
    (h : precedes l2 a k) : precedes (l ++ l2) a k := by
  unfold precedes at *
  induction l with
  | nil => simpa using h
  | cons x xs ih =>
    have hx : x ≠ k := fun e => hk (by simp [e])
    have hk2 : k ∉ xs := fun e => hk (by simp [e])
    simp only [List.cons_append, List.takeWhile_cons, hx, ne_eq, not_false_eq_true,
      decide_True, if_true, List.mem_cons]
    exact Or.inr (ih hk2)

theorem precedes_mem (l : List String) (a k : String) (h : precedes l a k) : a ∈ l := by
  unfold precedes at h
  exact (List.takeWhile_sublist _).subset h

theorem precedes_firstNew (l seen : List String) (a k : String) (h : precedes l a k)
    (ha : a ∉ seen) (hk : k ∉ seen) : precedes (firstNew seen l) a k := by
  unfold precedes at *
  induction l generalizing seen with
  | nil => simp at h
  | cons x xs ih =>
    by_cases hx : x = k
    · simp [List.takeWhile, hx] at h
    · simp only [List.takeWhile_cons, hx, ne_eq, not_false_eq_true, decide_True, if_true,
        List.mem_cons] at h
      rw [firstNew_cons]
      by_cases hs : x ∈ seen
      · simp only [hs, if_true]
        rcases h with h | h
        · subst h
          exact absurd hs ha
        · exact ih seen h ha hk
      · simp only [hs, if_false, List.takeWhile_cons, hx, ne_eq, not_false_eq_true,
          decide_True, if_true, List.mem_cons]
        rcases h with h | h
        · exact Or.inl h
        · by_cases hax : a = x
          · exact Or.inl hax
          · refine Or.inr (ih (seen ++ [x]) h ?_ ?_)
            · simp [ha, hax]
            · have : ¬ k = x := fun e => hx e.symm
              simp [hk, this]

theorem nodup_mapKeys_mapStore {β : Type} (k : String) (v : β) (m : List (String × β))
    (h : (mapKeys m).Nodup) : (mapKeys (mapStore k v m)).Nodup := by
  cases hl : mapLookup m k with
  | some w => rw [mapKeys_mapStore_of_some k v w m hl]; exact h
  | none =>
    rw [mapStore_of_lookup_none k v m hl]
    have hk : k ∉ mapKeys m := by
      rw [mem_mapKeys_iff, hl]
      simp
    simp only [mapKeys, List.map_append, List.map_cons, List.map_nil] at hk ⊢
    exact List.Nodup.append h (by simp) (by simpa using hk)

theorem nodup_mapKeys_updateEntry (data : ServiceUsageData) (key : String)
    (f : ComponentInstance → ComponentInstance) (h : (mapKeys data.ComponentInstanceMap).Nodup) :
    (mapKeys (data.updateEntry key f).ComponentInstanceMap).Nodup := by
  unfold ServiceUsageData.updateEntry ServiceUsageData.getComponentInstanceEntry
  cases mapLookup data.ComponentInstanceMap key with
  | some inst => exact nodup_mapKeys_mapStore _ _ _ h
  | none => exact nodup_mapKeys_mapStore _ _ _ (nodup_mapKeys_mapStore _ _ _ h)

theorem mapLookup_of_mem {β : Type} (m : List (String × β)) (k : String) (v : β)
    (hn : (mapKeys m).Nodup) (h : (k, v) ∈ m) : mapLookup m k = some v := by
  induction m with
  | nil => simp at h
  | cons hd tl ih =>
    obtain ⟨k', v'⟩ := hd
    simp only [mapKeys, List.map_cons, List.nodup_cons] at hn
    simp only [List.mem_cons, Prod.mk.injEq] at h
    rcases h with ⟨h1, h2⟩ | h
    · subst h1 h2
      simp [mapLookup]
    · have hne : k' ≠ k := by
        intro e
        subst e
        exact hn.1 (List.mem_map.mpr ⟨(k', v), h, rfl⟩)
      simp only [mapLookup, hne, if_false]
      exact ih hn.2 h

theorem edgesIn_recordProcessingOrder (data : ServiceUsageData) (key k : String) :
    (data.recordProcessingOrder key).edgesIn k = data.edgesIn k := by
  unfold ServiceUsageData.edgesIn
  rw [recordProcessingOrder_map]

theorem mem_edgesIn_foldl_updateEntry (entries : List (String × ComponentInstance))
    (data : ServiceUsageData) (a k : String) :
    a ∈ (entries.foldl (fun d kv => d.updateEntry kv.1 (fun i => i.appendData kv.2))
        data).edgesIn k ↔
      a ∈ data.edgesIn k ∨ ∃ inst, (k, inst) ∈ entries ∧ a ∈ inst.EdgesIn := by
  induction entries generalizing data with
  | nil => simp
  | cons hd tl ih =>
    obtain ⟨k0, i0⟩ := hd
    simp only [List.foldl_cons]
    rw [ih, edgesIn_updateEntry]
    by_cases hk : k = k0
    · subst hk
      simp only [if_true, ComponentInstance.appendData, mem_foldl_setAdd, getD_new_edgesIn,
        List.mem_cons, Prod.mk.injEq, true_and]
      constructor
      · rintro ((h | h) | ⟨inst, h1, h2⟩)
        · exact Or.inl h
        · exact Or.inr ⟨i0, Or.inl rfl, h⟩
        · exact Or.inr ⟨inst, Or.inr h1, h2⟩
      · rintro (h | ⟨inst, h1 | h1, h2⟩)
        · exact Or.inl (Or.inl h)
        · subst h1
          exact Or.inl (Or.inr h2)
        · exact Or.inr ⟨inst, h1, h2⟩
    · simp only [hk, if_false, List.mem_cons, Prod.mk.injEq, false_and, false_or]

theorem nodup_mapKeys_foldl_updateEntry (entries : List (String × ComponentInstance))
    (data : ServiceUsageData) (h : (mapKeys data.ComponentInstanceMap).Nodup) :
    (mapKeys (entries.foldl (fun d kv => d.updateEntry kv.1 (fun i => i.appendData kv.2))
        data).ComponentInstanceMap).Nodup := by
  induction entries generalizing data with
  | nil => exact h
  | cons hd tl ih =>
    simp only [List.foldl_cons]
    exact ih _ (nodup_mapKeys_updateEntry _ _ _ h)

theorem mem_edgesIn_appendData (data ops : ServiceUsageData) (a k : String)
    (hn : (mapKeys ops.ComponentInstanceMap).Nodup) (h : a ∈ (data.appendData ops).edgesIn k) :
    a ∈ data.edgesIn k ∨ a ∈ ops.edgesIn k := by
  unfold ServiceUsageData.appendData at h
  unfold ServiceUsageData.edgesIn at h
  simp only [foldl_recordProcessingOrder_map] at h
  have h2 := (mem_edgesIn_foldl_updateEntry ops.ComponentInstanceMap data a k).mp h
  rcases h2 with h2 | ⟨inst, h3, h4⟩
  · exact Or.inl h2
  · right
    unfold ServiceUsageData.edgesIn
    rw [mapLookup_of_mem _ _ _ hn h3]
    exact h4

theorem precedes_of_append {l l2 : List String} {a k : String} (hk : k ∈ l)
    (h : precedes (l ++ l2) a k) : precedes l a k := by
  unfold precedes at *
  induction l with
  | nil => simp at hk
  | cons x xs ih =>
    by_cases hx : x = k
    · simp [List.takeWhile, hx] at h
    · simp only [List.cons_append, List.takeWhile_cons, hx, ne_eq, not_false_eq_true,
        decide_True, if_true, List.mem_cons] at h ⊢
      have hk2 : k ∈ xs := by
        rcases List.mem_cons.mp hk with e | e
        · exact absurd e.symm hx
        · exact e
      rcases h with h | h
      · exact Or.inl h
      · exact Or.inr (ih hk2 h)

theorem precedes_ne {l : List String} {a k : String} (h : precedes l a k) : a ≠ k := by
  unfold precedes at h
  have := List.mem_takeWhile_imp h
  simpa using this

theorem mem_of_precedes_append_singleton {l : List String} {a k : String}
    (h : precedes (l ++ [k]) a k) : a ∈ l := by
  have hm := precedes_mem _ _ _ h
  have hne := precedes_ne h
  rcases List.mem_append.mp hm with e | e
  · exact e
  · exact absurd (List.mem_singleton.mp e) hne

theorem storeEdge_order (data : ServiceUsageData) (x y : String) :
    (data.storeEdge x y).ComponentProcessingOrder = data.ComponentProcessingOrder := by
  by_cases he : x = "" ∨ y = ""
  · rw [storeEdge_of_empty _ _ _ he]
  · have hx : x ≠ "" := fun e => he (Or.inl e)
    have hy : y ≠ "" := fun e => he (Or.inr e)
    rw [storeEdge_of_nonempty _ _ _ hx hy, updateEntry_order, updateEntry_order]

theorem storeEdge_orderHas (data : ServiceUsageData) (x y : String) :
    (data.storeEdge x y).componentProcessingOrderHas = data.componentProcessingOrderHas := by
  by_cases he : x = "" ∨ y = ""
  · rw [storeEdge_of_empty _ _ _ he]
  · have hx : x ≠ "" := fun e => he (Or.inl e)
    have hy : y ≠ "" := fun e => he (Or.inr e)
    rw [storeEdge_of_nonempty _ _ _ hx hy, updateEntry_orderHas, updateEntry_orderHas]

theorem appendData_order (data ops : ServiceUsageData) (hc : data.orderConsistent) :
    (data.appendData ops).ComponentProcessingOrder =
      data.ComponentProcessingOrder ++
        firstNew data.ComponentProcessingOrder ops.ComponentProcessingOrder := by
  have hc1 := foldl_updateEntry_consistent ops.ComponentInstanceMap data hc
  have ho1 := (foldl_updateEntry_order ops.ComponentInstanceMap data).2
  have hf := foldl_recordProcessingOrder ops.ComponentProcessingOrder _ hc1
  unfold ServiceUsageData.appendData
  simp only [hf.2.1, ho1]

theorem mem_of_mapLookup {β : Type} (m : List (String × β)) (k : String) (v : β)
    (h : mapLookup m k = some v) : (k, v) ∈ m := by
  induction m with
  | nil => simp [mapLookup] at h
  | cons hd tl ih =>
    obtain ⟨k', v'⟩ := hd
    by_cases hk : k' = k
    · simp only [mapLookup, hk, if_true, Option.some.injEq] at h
      subst hk h
      exact List.mem_cons_self _ _
    · simp only [mapLookup, hk, if_false] at h
      exact List.mem_cons_of_mem _ (ih h)

/-- The in-edges after a merge are those of the data and those of the merged data. -/
theorem mem_edgesIn_appendData_iff (data ops : ServiceUsageData) (a k : String)
    (hn : (mapKeys ops.ComponentInstanceMap).Nodup) :
    a ∈ (data.appendData ops).edgesIn k ↔ a ∈ data.edgesIn k ∨ a ∈ ops.edgesIn k := by
  constructor
  · exact mem_edgesIn_appendData data ops a k hn
  · intro h
    have key : a ∈ (ops.ComponentInstanceMap.foldl
        (fun d kv => d.updateEntry kv.1 (fun i => i.appendData kv.2)) data).edgesIn k := by
      rw [mem_edgesIn_foldl_updateEntry]
      rcases h with h | h
      · exact Or.inl h
      · right
        unfold ServiceUsageData.edgesIn at h
        cases hl : mapLookup ops.ComponentInstanceMap k with
        | none => simp [hl] at h
        | some inst =>
          rw [hl] at h
          exact ⟨inst, mem_of_mapLookup _ _ _ hl, h⟩
    unfold ServiceUsageData.appendData ServiceUsageData.edgesIn
    simp only [foldl_recordProcessingOrder_map]
    exact key

/-- Every data built by the three operations has an index that agrees with its order and an
instance map with one binding per key. -/
theorem built_invariant (data : ServiceUsageData) (h : Built data) :
    data.orderConsistent ∧ (mapKeys data.ComponentInstanceMap).Nodup := by
  induction h with
  | new =>
    constructor
    · intro k
      simp [ServiceUsageData.orderHas, newServiceUsageData, mapLookup]
    · simp [newServiceUsageData, mapKeys]
  | storeEdge data key keyDst _ ih =>
    obtain ⟨hc, hn⟩ := ih
    constructor
    · intro k
      unfold ServiceUsageData.orderHas
      rw [storeEdge_order, storeEdge_orderHas]
      exact hc k
    · by_cases hempty : key = "" ∨ keyDst = ""
      · rw [storeEdge_of_empty _ _ _ hempty]
        exact hn
      · have hx : key ≠ "" := fun e => hempty (Or.inl e)
        have hy : keyDst ≠ "" := fun e => hempty (Or.inr e)
        rw [storeEdge_of_nonempty _ _ _ hx hy]
        exact nodup_mapKeys_updateEntry _ _ _ (nodup_mapKeys_updateEntry _ _ _ hn)
  | recordProcessingOrder data key _ ih =>
    obtain ⟨hc, hn⟩ := ih
    refine ⟨recordProcessingOrder_consistent data key hc, ?_⟩
    rw [recordProcessingOrder_map]
    exact hn
  | appendData data ops _ _ ih1 _ =>
    obtain ⟨hc, hn⟩ := ih1
    have hc1 := foldl_updateEntry_consistent ops.ComponentInstanceMap data hc
    have hf := foldl_recordProcessingOrder ops.ComponentProcessingOrder _ hc1
    refine ⟨hf.1, ?_⟩
    unfold ServiceUsageData.appendData
    simp only [hf.2.2]
    exact nodup_mapKeys_foldl_updateEntry _ _ hn

theorem mem_edgesIn_storeEdge_iff (data : ServiceUsageData) (x y a k : String) :
    a ∈ (data.storeEdge x y).edgesIn k ↔
      a ∈ data.edgesIn k ∨ (x ≠ "" ∧ y ≠ "" ∧ a = x ∧ k = y) := by
  by_cases he : x = "" ∨ y = ""
  · rw [storeEdge_of_empty _ _ _ he]
    constructor
    · exact Or.inl
    · rintro (h | ⟨hx, hy, _, _⟩)
      · exact h
      · rcases he with he | he
        · exact absurd he hx
        · exact absurd he hy
  · have hx : x ≠ "" := fun e => he (Or.inl e)
    have hy : y ≠ "" := fun e => he (Or.inr e)
    rw [mem_edgesIn_storeEdge data x y a k hx hy]
    constructor
    · rintro (h | ⟨h1, h2⟩)
      · exact Or.inl h
      · exact Or.inr ⟨hx, hy, h1, h2⟩
    · rintro (h | ⟨_, _, h1, h2⟩)
      · exact Or.inl h
      · exact Or.inr ⟨h1, h2⟩

/-- After `storeEdge(x, y)` the order is topological exactly when it was and the new edge,
if one was stored and its target is in the order, has its source before the target. -/
theorem storeEdge_topological_iff (data : ServiceUsageData) (x y : String) :
    (data.storeEdge x y).topological ↔
      data.topological ∧
        (x ≠ "" → y ≠ "" → y ∈ data.ComponentProcessingOrder →
          precedes data.ComponentProcessingOrder x y) := by
  unfold ServiceUsageData.topological
  rw [storeEdge_order]
  constructor
  · intro h
    refine ⟨fun k hk a ha => h k hk a ((mem_edgesIn_storeEdge_iff data x y a k).mpr (Or.inl ha)),
      fun hx hy hm => h y hm x ((mem_edgesIn_storeEdge_iff data x y x y).mpr
        (Or.inr ⟨hx, hy, rfl, rfl⟩))⟩
  · rintro ⟨h1, h2⟩ k hk a ha
    rcases (mem_edgesIn_storeEdge_iff data x y a k).mp ha with h | ⟨hx, hy, e1, e2⟩
    · exact h1 k hk a h
    · subst e1 e2
      exact h2 hx hy hk

/-- After `recordProcessingOrder(key)` the order is topological exactly when it was and the
key was already recorded or every in-edge of the key is recorded. -/
theorem recordProcessingOrder_topological_iff (data : ServiceUsageData) (key : String)
    (hc : data.orderConsistent) :
    (data.recordProcessingOrder key).topological ↔
      data.topological ∧
        (key ∈ data.ComponentProcessingOrder ∨
          ∀ a ∈ data.edgesIn key, a ∈ data.ComponentProcessingOrder) := by
  by_cases hk : key ∈ data.ComponentProcessingOrder
  · rw [recordProcessingOrder_of_has _ _ ((hc key).mpr hk)]
    exact ⟨fun h => ⟨h, Or.inl hk⟩, fun h => h.1⟩
  · unfold ServiceUsageData.topological
    simp only [edgesIn_recordProcessingOrder]
    rw [recordProcessingOrder_order data key hc, if_neg hk]
    constructor
    · intro h
      refine ⟨fun k hm a ha => ?_, Or.inr (fun a ha => ?_)⟩
      · exact precedes_of_append hm (h k (List.mem_append_left _ hm) a ha)
      · exact mem_of_precedes_append_singleton (h key (by simp) a ha)
    · rintro ⟨h1, h2⟩ k hm a ha
      rcases List.mem_append.mp hm with hm | hm
      · exact precedes_append _ _ _ _ (h1 k hm a ha)
      · have e : k = key := List.mem_singleton.mp hm
        subst e
        rcases h2 with h2 | h2
        · exact absurd h2 hk
        · exact precedes_append_of_mem _ _ _ _ (h2 a ha) hk

/-- After `appendData(ops)` the order is topological exactly when every in-edge, of the data
or of `ops`, of every key of the merged order precedes that key in the merged order. -/
theorem appendData_topological_iff (data ops : ServiceUsageData) (hc : data.orderConsistent)
    (hn : (mapKeys ops.ComponentInstanceMap).Nodup) :
    (data.appendData ops).topological ↔
      ∀ k ∈ data.ComponentProcessingOrder ++
          firstNew data.ComponentProcessingOrder ops.ComponentProcessingOrder,
        (∀ a ∈ data.edgesIn k, precedes (data.ComponentProcessingOrder ++
          firstNew data.ComponentProcessingOrder ops.ComponentProcessingOrder) a k) ∧
        (∀ a ∈ ops.edgesIn k, precedes (data.ComponentProcessingOrder ++
          firstNew data.ComponentProcessingOrder ops.ComponentProcessingOrder) a k) := by
  unfold ServiceUsageData.topological
  rw [appendData_order data ops hc]
  constructor
  · intro h k hk
    exact ⟨fun a ha => h k hk a ((mem_edgesIn_appendData_iff data ops a k hn).mpr (Or.inl ha)),
      fun a ha => h k hk a ((mem_edgesIn_appendData_iff data ops a k hn).mpr (Or.inr ha))⟩
  · intro h k hk a ha
    rcases (mem_edgesIn_appendData_iff data ops a k hn).mp ha with h1 | h1
    · exact (h k hk).1 a h1
    · exact (h k hk).2 a h1

/-- C7, as the code has it: the processing order is the order of first recording; no operation
sorts it or moves a recorded key, so it is a topological order of the edge graph exactly as
long as every call keeps it so. For every data and `ops` built from `newServiceUsageData` by
`storeEdge`, `recordProcessingOrder` and `appendData`: `storeEdge(key, keyDst)` leaves the
order as it is, and afterwards the order is topological iff it was and the stored edge, when
`keyDst` is in the order, has `key` before `keyDst`; after `recordProcessingOrder(key)` the
order is topological iff it was and `key` was already recorded or every in-edge of `key` is
recorded; after `appendData(ops)` the order is the old order followed by the new keys of the
order of `ops`, the in-edges of a key are those of the data and those of `ops`, and the order
is topological iff every such in-edge of every key of the merged order precedes it there. -/
theorem C7_processing_order_topological_iff (data ops : ServiceUsageData) (hd : Built data)
    (ho : Built ops) (key keyDst : String) :
    (data.storeEdge key keyDst).ComponentProcessingOrder = data.ComponentProcessingOrder ∧
      ((data.storeEdge key keyDst).topological ↔
        data.topological ∧
          (key ≠ "" → keyDst ≠ "" → keyDst ∈ data.ComponentProcessingOrder →
            precedes data.ComponentProcessingOrder key keyDst)) ∧
      ((data.recordProcessingOrder key).topological ↔
        data.topological ∧
          (key ∈ data.ComponentProcessingOrder ∨
            ∀ a ∈ data.edgesIn key, a ∈ data.ComponentProcessingOrder)) ∧
      (data.appendData ops).ComponentProcessingOrder =
        data.ComponentProcessingOrder ++
          firstNew data.ComponentProcessingOrder ops.ComponentProcessingOrder ∧
      (∀ k a, a ∈ (data.appendData ops).edgesIn k ↔ a ∈ data.edgesIn k ∨ a ∈ ops.edgesIn k) ∧
      ((data.appendData ops).topological ↔
        ∀ k ∈ data.ComponentProcessingOrder ++
            firstNew data.ComponentProcessingOrder ops.ComponentProcessingOrder,
          (∀ a ∈ data.edgesIn k, precedes (data.ComponentProcessingOrder ++
            firstNew data.ComponentProcessingOrder ops.ComponentProcessingOrder) a k) ∧
          (∀ a ∈ ops.edgesIn k, precedes (data.ComponentProcessingOrder ++
            firstNew data.ComponentProcessingOrder ops.ComponentProcessingOrder) a k)) := by
  obtain ⟨hc, _⟩ := built_invariant data hd
  obtain ⟨_, hn⟩ := built_invariant ops ho
  exact ⟨storeEdge_order data key keyDst, storeEdge_topological_iff data key keyDst,
    recordProcessingOrder_topological_iff data key hc, appendData_order data ops hc,
    fun k a => mem_edgesIn_appendData_iff data ops a k hn,
    appendData_topological_iff data ops hc hn⟩

theorem built_resolutionB : Built resolutionB :=
  Built.recordProcessingOrder _ _ (Built.storeEdge _ _ _
    (Built.recordProcessingOrder _ _ Built.new))

theorem built_resolutionA : Built resolutionA :=
  Built.recordProcessingOrder _ _ (Built.storeEdge _ _ _
    (Built.recordProcessingOrder _ _ (Built.storeEdge _ _ _
      (Built.recordProcessingOrder _ _ (Built.storeEdge _ _ _
        (Built.recordProcessingOrder _ _ Built.new))))))

/-- C7 at a concrete run: the chained resolution `[Asvc, Acmp, Bsvc, Bcmp]` stays topological
when the resolution `[Bsvc, Bcmp]` is merged into it, when the edge `Bcmp -> Csvc` to a key
not yet recorded is stored, and when `Bcmp` is recorded again; it stops being topological when
the edge `Bcmp -> Asvc`, whose target is recorded before its source, is stored. An edge stored
before either end is recorded does no harm when the source is recorded first: `storeEdge(a,
b)`, then `a`, then `b` gives a topological order. -/
theorem C7_processing_order_topological_iff_witness :
    Built resolutionA ∧ Built resolutionB ∧
      (resolutionA.appendData resolutionB).ComponentProcessingOrder =
        ["Asvc", "Acmp", "Bsvc", "Bcmp"] ∧
      (resolutionA.appendData resolutionB).topological ∧
      (resolutionA.storeEdge "Bcmp" "Csvc").topological ∧
      (resolutionA.recordProcessingOrder "Bcmp").topological ∧
      ¬ (resolutionA.storeEdge "Bcmp" "Asvc").topological ∧
      (((newServiceUsageData.storeEdge "a" "b").recordProcessingOrder
        "a").recordProcessingOrder "b").topological := by
  have h1 := C7_processing_order_topological_iff resolutionA resolutionB built_resolutionA
    built_resolutionB "Bcmp" "Csvc"
  have h2 := C7_processing_order_topological_iff resolutionA resolutionB built_resolutionA
    built_resolutionB "Bcmp" "Asvc"
  have h3 := C7_processing_order_topological_iff
    ((newServiceUsageData.storeEdge "a" "b").recordProcessingOrder "a") newServiceUsageData
    (Built.recordProcessingOrder _ _ (Built.storeEdge _ _ _ Built.new)) Built.new "b" ""
  refine ⟨built_resolutionA, built_resolutionB, ?_, ?_, ?_, ?_, ?_, ?_⟩
  · rw [h1.2.2.2.1]
    decide
  · exact h1.2.2.2.2.2.mpr (by decide)
  · exact h1.2.1.mpr (by decide)
  · exact h1.2.2.1.mpr (by decide)
  · intro h
    have h4 := (h2.2.1.mp h).2 (by decide) (by decide) (by decide)
    revert h4
    decide
  · exact h3.2.2.1.mpr (by decide)

/-- C7 as stated fails, in two ways. After `storeEdge(a, b)` and `recordProcessingOrder(b)`
on fresh data, `b` is in the order and its in-edge `a` is not, so `a` does not precede `b`.
And a merge breaks the order of data that was topological: the resolution `[Bsvc, Bcmp]` and
the chained resolution `[Asvc, Acmp, Bsvc, Bcmp]` with the edge `Acmp -> Bsvc` are both built
by the three operations and both topological; merging the second into the first gives the
order `[Bsvc, Bcmp, Asvc, Acmp]`, in which the in-edge `Acmp` of `Bsvc` comes after `Bsvc`. -/
theorem C7_processing_order_not_topological_counterexample :
    (Built ((newServiceUsageData.storeEdge "a" "b").recordProcessingOrder "b") ∧
      ((newServiceUsageData.storeEdge "a" "b").recordProcessingOrder
        "b").ComponentProcessingOrder = ["b"] ∧
      ((newServiceUsageData.storeEdge "a" "b").recordProcessingOrder "b").edgesIn "b" = ["a"] ∧
      ¬ precedes ((newServiceUsageData.storeEdge "a" "b").recordProcessingOrder
        "b").ComponentProcessingOrder "a" "b" ∧
      ¬ ((newServiceUsageData.storeEdge "a" "b").recordProcessingOrder "b").topological) ∧
    (Built resolutionB ∧ Built resolutionA ∧ resolutionB.topological ∧
      resolutionA.topological ∧ Built (resolutionB.appendData resolutionA) ∧
      (resolutionB.appendData resolutionA).ComponentProcessingOrder =
        ["Bsvc", "Bcmp", "Asvc", "Acmp"] ∧
      (resolutionB.appendData resolutionA).edgesIn "Bsvc" = ["Acmp"] ∧
      ¬ precedes (resolutionB.appendData resolutionA).ComponentProcessingOrder "Acmp" "Bsvc" ∧
      ¬ (resolutionB.appendData resolutionA).topological) := by
  refine ⟨⟨Built.recordProcessingOrder _ _ (Built.storeEdge _ _ _ Built.new), ?_, ?_, ?_, ?_⟩,
    ⟨built_resolutionB, built_resolutionA, ?_, ?_,
      Built.appendData _ _ built_resolutionB built_resolutionA, ?_, ?_, ?_, ?_⟩⟩ <;>
    decide

/-! ## Errors and events of the resolution node -/

/-- C8: a service-cycle failure carries the traversal path. `errorServiceCycleDetected`
returns an error (not nil) whose details have exactly one field, `path`, equal to `node.path`,
and whose message is `Error when processing policy, service cycle detected: ` followed by the
rendering of `node.path`. -/
theorem C8_errorServiceCycleDetected_carries_path (node : resolutionNode) :
    ∃ e, node.errorServiceCycleDetected = some e ∧
      e.details = [("path", FieldValue.strings node.path)] ∧
      e.message =
        "Error when processing policy, service cycle detected: " ++ renderStrings node.path := by
  refine ⟨_, rfl, rfl, ?_⟩
  apply String.ext
  simp [NewErrorWithDetails, Sprintf, sprintfChars, FmtArg.render]

/-- The number of secrets that `logLabels` reports: 0 when the node has no user. -/
theorem logLabels_eq (node : resolutionNode) (labelSet : LabelSet) (scope : String) :
    ∃ secretCnt : Int, node.logLabels labelSet scope = node.eventLog ++
      [{ level := Level.info, fields := [("labels", FieldValue.labels labelSet.Labels)],
          format := "Labels (%s): %s and %d secrets",
          args := [FmtArg.str scope, FmtArg.labels labelSet.Labels, FmtArg.int secretCnt] }] :=
  ⟨_, rfl⟩

theorem logStartResolvingDependency_eq (node : resolutionNode) :
    ∃ secretCnt : Int, node.logStartResolvingDependency = node.eventLog ++
      [{ level := Level.info, fields := [],
          format := if node.depth = 0 then
              "Resolving top-level dependency '%s/%s' ('%s' -> '%s')"
            else "Resolving dependency '%s/%s' ('%s' -> '%s'): processing '%s', tree depth %d",
          args := if node.depth = 0 then
              [FmtArg.str node.dependency.Namespace, FmtArg.str node.dependency.Name,
                FmtArg.str node.dependency.User, FmtArg.str node.dependency.Contract]
            else
              [FmtArg.str node.dependency.Namespace, FmtArg.str node.dependency.Name,
                FmtArg.str node.dependency.User, FmtArg.str node.dependency.Contract,
                FmtArg.str node.contractName, FmtArg.int node.depth] },
        { level := Level.info, fields := [("labels", FieldValue.labels node.labels.Labels)],
          format := "Labels (%s): %s and %d secrets",
          args := [FmtArg.str "initial", FmtArg.labels node.labels.Labels,
            FmtArg.int secretCnt] }] := by
  refine ⟨match node.user with
    | some user => ((node.LoadSecretsByUserName user.Name).length : Int)
    | none => 0, ?_⟩
  by_cases h : node.depth = 0
  · simp [resolutionNode.logStartResolvingDependency, resolutionNode.logLabels, h,
      EventLog.Infof]
  · simp [resolutionNode.logStartResolvingDependency, resolutionNode.logLabels, h,
      EventLog.Infof]

/-- C9: the start of every dependency is logged together with its initial labels.
`logStartResolvingDependency` appends exactly two entries, both of level info. The first has
no fields and announces the dependency: with the top-level wording and the four names of the
dependency exactly when `node.depth` is 0, otherwise with the wording for a sub-dependency,
whose arguments end with `node.contractName` and `node.depth`; in both cases the text of the
message is spelled out. The second is the entry of the labels: its scope argument is
`initial`, and its only field, `labels`, is `node.labels.Labels`. -/
theorem C9_logStartResolvingDependency_two_entries (node : resolutionNode) :
    ∃ e1 e2, node.logStartResolvingDependency = node.eventLog ++ [e1, e2] ∧
      e1.level = Level.info ∧ e1.fields = [] ∧
      (e1.format = "Resolving top-level dependency '%s/%s' ('%s' -> '%s')" ↔ node.depth = 0) ∧
      (node.depth = 0 →
        e1.args = [FmtArg.str node.dependency.Namespace, FmtArg.str node.dependency.Name,
            FmtArg.str node.dependency.User, FmtArg.str node.dependency.Contract] ∧
          e1.message = "Resolving top-level dependency '" ++ node.dependency.Namespace ++ "/" ++
            node.dependency.Name ++ "' ('" ++ node.dependency.User ++ "' -> '" ++
            node.dependency.Contract ++ "')") ∧
      (node.depth ≠ 0 →
        e1.format =
            "Resolving dependency '%s/%s' ('%s' -> '%s'): processing '%s', tree depth %d" ∧
          e1.args = [FmtArg.str node.dependency.Namespace, FmtArg.str node.dependency.Name,
            FmtArg.str node.dependency.User, FmtArg.str node.dependency.Contract,
            FmtArg.str node.contractName, FmtArg.int node.depth] ∧
          e1.message = "Resolving dependency '" ++ node.dependency.Namespace ++ "/" ++
            node.dependency.Name ++ "' ('" ++ node.dependency.User ++ "' -> '" ++
            node.dependency.Contract ++ "'): processing '" ++ node.contractName ++
            "', tree depth " ++ toString node.depth) ∧
      e2.level = Level.info ∧
      e2.fields = [("labels", FieldValue.labels node.labels.Labels)] ∧
      mapLookup e2.fields "labels" = some (FieldValue.labels node.labels.Labels) ∧
      e2.format = "Labels (%s): %s and %d secrets" ∧
      e2.args.take 2 = [FmtArg.str "initial", FmtArg.labels node.labels.Labels] := by
  obtain ⟨n, hn⟩ := logStartResolvingDependency_eq node
  refine ⟨_, _, hn, rfl, rfl, ?_, ?_, ?_, rfl, rfl, ?_, rfl, rfl⟩
  · by_cases h : node.depth = 0
    · simp [h]
    · simp only [h, if_false, iff_false]
      decide
  · intro h
    refine ⟨by simp [h], ?_⟩
    apply String.ext
    simp [Entry.message, h, Sprintf, sprintfChars, FmtArg.render]
  · intro h
    refine ⟨by simp [h], by simp [h], ?_⟩
    apply String.ext
    simp [Entry.message, h, Sprintf, sprintfChars, FmtArg.render]
  · simp [mapLookup]

/-- C10, as the code has it: allocation key resolution is logged when there are resolved
keys. For a non-empty list of resolved keys `logAllocationKeysSuccessfullyResolved` appends
exactly one entry, of level info, whose field `keys` holds the key templates of the context and
whose field `keysResolved` holds the resolved keys; for the empty list it appends nothing. -/
theorem C10_logAllocationKeysSuccessfullyResolved_nonempty (node : resolutionNode)
    (resolvedKeys : List String) :
    (resolvedKeys ≠ [] →
        ∃ e, node.logAllocationKeysSuccessfullyResolved resolvedKeys = node.eventLog ++ [e] ∧
          e.level = Level.info ∧
          e.fields = [("keys", FieldValue.strings node.context.Allocation.Keys),
            ("keysResolved", FieldValue.strings resolvedKeys)] ∧
          mapLookup e.fields "keys" = some (FieldValue.strings node.context.Allocation.Keys) ∧
          mapLookup e.fields "keysResolved" = some (FieldValue.strings resolvedKeys) ∧
          e.args = [FmtArg.str node.context.Name, FmtArg.str node.contract.Name,
            FmtArg.strings resolvedKeys]) ∧
      (resolvedKeys = [] →
        node.logAllocationKeysSuccessfullyResolved resolvedKeys = node.eventLog) := by
  constructor
  · intro h
    have hl : resolvedKeys.length > 0 := List.length_pos.mpr h
    refine ⟨Entry.mk Level.info
      [("keys", FieldValue.strings node.context.Allocation.Keys),
        ("keysResolved", FieldValue.strings resolvedKeys)]
      "Allocation keys successfully resolved for context '%s' within contract '%s': %s"
      [FmtArg.str node.context.Name, FmtArg.str node.contract.Name,
        FmtArg.strings resolvedKeys], ?_, rfl, rfl, ?_, ?_, rfl⟩
    · simp only [resolutionNode.logAllocationKeysSuccessfullyResolved, hl, if_true,
        EventLog.Infof]
    · simp [mapLookup]
    · simp [mapLookup]
  · intro h
    subst h
    simp [resolutionNode.logAllocationKeysSuccessfullyResolved]

/-- C10 at a concrete call: with the resolved keys `[k1]` the sample node, whose log is empty,
gets a log of one info entry. -/
theorem C10_logAllocationKeysSuccessfullyResolved_nonempty_witness :
    ∃ e, sampleNode.logAllocationKeysSuccessfullyResolved ["k1"] = [e] ∧
      e.level = Level.info := by
  obtain ⟨e, h1, h2, _⟩ :=
    (C10_logAllocationKeysSuccessfullyResolved_nonempty sampleNode ["k1"]).1 (by decide)
  exact ⟨e, h1, h2⟩

/-- C10 as stated fails for the empty list: called with no resolved key, the sample node keeps
its log as it was; no entry is appended. -/
theorem C10_logAllocationKeysSuccessfullyResolved_empty_counterexample :
    sampleNode.logAllocationKeysSuccessfullyResolved [] = sampleNode.eventLog ∧
      ¬ ∃ e, sampleNode.logAllocationKeysSuccessfullyResolved [] = sampleNode.eventLog ++ [e] := by
  constructor
  · rfl
  · rintro ⟨e, h⟩
    have h2 := congrArg List.length h
    simp [resolutionNode.logAllocationKeysSuccessfullyResolved, sampleNode] at h2

theorem logComponentNotMatched_append (node : resolutionNode) (component : ServiceComponent) :
    ∃ added, (node.logComponentNotMatched component).getD node.eventLog =
        node.eventLog ++ added ∧
      ∀ e ∈ added, e.level = Level.debug ∨ e.level = Level.info ∨ e.level = Level.warning := by
  unfold resolutionNode.logComponentNotMatched
  split
  · exact ⟨[_], rfl, by simp⟩
  · exact ⟨[], by simp, by simp⟩

theorem logAllocationKeysSuccessfullyResolved_append (node : resolutionNode)
    (resolvedKeys : List String) :
    ∃ added, node.logAllocationKeysSuccessfullyResolved resolvedKeys = node.eventLog ++ added ∧
      ∀ e ∈ added, e.level = Level.debug ∨ e.level = Level.info ∨ e.level = Level.warning := by
  unfold resolutionNode.logAllocationKeysSuccessfullyResolved
  split
  · exact ⟨[_], rfl, by simp⟩
  · exact ⟨[], by simp, by simp⟩

theorem logResolvingDependencyOnComponent_append (node : resolutionNode) :
    ∃ added, node.logResolvingDependencyOnComponent.getD node.eventLog =
        node.eventLog ++ added ∧
      ∀ e ∈ added, e.level = Level.debug ∨ e.level = Level.info ∨ e.level = Level.warning := by
  unfold resolutionNode.logResolvingDependencyOnComponent
  split
  · exact ⟨[], by simp, by simp⟩
  · split
    · exact ⟨[_], rfl, by simp⟩
    · split
      · exact ⟨[_], rfl, by simp⟩
      · exact ⟨[_], rfl, by simp⟩

theorem logInstanceSuccessfullyResolved_append (node : resolutionNode)
    (cik : ComponentInstanceKey) :
    ∃ added, (node.logInstanceSuccessfullyResolved cik).getD node.eventLog =
        node.eventLog ++ added ∧
      ∀ e ∈ added, e.level = Level.debug ∨ e.level = Level.info ∨ e.level = Level.warning := by
  unfold resolutionNode.logInstanceSuccessfullyResolved
  split
  · exact ⟨[], by simp, by simp⟩
  · simp only []
    split
    · exact ⟨[_], rfl, by simp⟩
    · split
      · exact ⟨[_], rfl, by simp⟩
      · split
        · exact ⟨[], by simp, by simp⟩
        · exact ⟨[_], rfl, by simp⟩

theorem logCannotResolveInstance_append (node : resolutionNode) :
    ∃ added, node.logCannotResolveInstance = node.eventLog ++ added ∧
      ∀ e ∈ added, e.level = Level.debug ∨ e.level = Level.info ∨ e.level = Level.warning := by
  unfold resolutionNode.logCannotResolveInstance
  split
  · exact ⟨[_], rfl, by simp⟩
  · split
    · exact ⟨[_], rfl, by simp⟩
    · exact ⟨[_], rfl, by simp⟩

/-- C1: the event log is append-only. For every node and every call of a logging operation,
the event log after the call is the event log before it followed by the entries the call
added (so the old log is an initial segment of the new one), and every added entry has level
debug, info or warning. A call that stops at a nil dereference stops before it appends. -/
theorem C1_event_log_append_only (node : resolutionNode) (call : LogCall) :
    ∃ added, call.logAfter node = node.eventLog ++ added ∧
      node.eventLog <+: call.logAfter node ∧
      ∀ e ∈ added, e.level = Level.debug ∨ e.level = Level.info ∨ e.level = Level.warning := by
  have key : ∃ added, call.logAfter node = node.eventLog ++ added ∧
      ∀ e ∈ added, e.level = Level.debug ∨ e.level = Level.info ∨ e.level = Level.warning := by
    cases call with
    | startResolvingDependency =>
      obtain ⟨n, hn⟩ := logStartResolvingDependency_eq node
      exact ⟨_, hn, by simp⟩
    | labels labelSet scope => exact ⟨[_], rfl, by simp⟩
    | contractFound contract => exact ⟨[_], rfl, by simp⟩
    | serviceFound service => exact ⟨[_], rfl, by simp⟩
    | startMatchingContexts => exact ⟨[_], rfl, by simp⟩
    | contextMatched c => exact ⟨[_], rfl, by simp⟩
    | componentNotMatched component => exact logComponentNotMatched_append node component
    | testedContextCriteria context matched => exact ⟨[_], rfl, by simp⟩
    | rulesProcessingResult ns result => exact ⟨[_], rfl, by simp⟩
    | testedRuleMatch rule matched => exact ⟨[_], rfl, by simp⟩
    | allocationKeysSuccessfullyResolved keys =>
      exact logAllocationKeysSuccessfullyResolved_append node keys
    | resolvingDependencyOnComponent => exact logResolvingDependencyOnComponent_append node
    | instanceSuccessfullyResolved cik => exact logInstanceSuccessfullyResolved_append node cik
    | cannotResolveInstance => exact logCannotResolveInstance_append node
  obtain ⟨added, h1, h2⟩ := key
  exact ⟨added, h1, ⟨added, h1.symm⟩, h2⟩

/-! ## Component disposition, empty keys, duplicate-free order, unresolved instances -/

/-- C11: the disposition of every component (code or contract) is logged. For a node whose
component is set, `logResolvingDependencyOnComponent` returns and appends exactly one entry,
without fields. When the component has `Code`, with or without a `Contract`, it is an info
entry naming the component and the type of its code. When it has no `Code` and a non-empty
`Contract`, it is an info entry naming the contract. It is a warning entry, the one that
starts `Skipping unknown component`, exactly when the component has neither, and that entry
names the component. -/
theorem C11_logResolvingDependencyOnComponent_disposition (node : resolutionNode)
    (component : ServiceComponent) (h : node.component = some component) :
    ∃ e, node.logResolvingDependencyOnComponent = some (node.eventLog ++ [e]) ∧
      e.fields = [] ∧
      (∀ code, component.Code = some code →
        e.level = Level.info ∧
          e.format = "Processing dependency on component with code: %s (%s)" ∧
          e.args = [FmtArg.str component.Name, FmtArg.str code.Type_] ∧
          e.message = "Processing dependency on component with code: " ++ component.Name ++
            " (" ++ code.Type_ ++ ")") ∧
      (component.Code = none → component.Contract ≠ "" →
        e.level = Level.info ∧
          e.format = "Processing dependency on another contract: %s" ∧
          e.args = [FmtArg.str component.Contract] ∧
          e.message = "Processing dependency on another contract: " ++ component.Contract) ∧
      (component.Code = none → component.Contract = "" →
        e.level = Level.warning ∧
          e.format = "Skipping unknown component (not code and not contract): %s" ∧
          e.args = [FmtArg.str component.Name] ∧
          e.message = "Skipping unknown component (not code and not contract): " ++
            component.Name) ∧
      (e.level = Level.warning ↔ component.Code = none ∧ component.Contract = "") ∧
      (e.format = "Skipping unknown component (not code and not contract): %s" ↔
        component.Code = none ∧ component.Contract = "") := by
  unfold resolutionNode.logResolvingDependencyOnComponent
  simp only [h]
  cases hc : component.Code with
  | some code =>
    refine ⟨Entry.mk Level.info [] "Processing dependency on component with code: %s (%s)"
      [FmtArg.str component.Name, FmtArg.str code.Type_], rfl, rfl, ?_, ?_, ?_, ?_, ?_⟩
    · intro code2 h2
      cases h2
      refine ⟨rfl, rfl, rfl, ?_⟩
      apply String.ext
      simp [Entry.message, Sprintf, sprintfChars, FmtArg.render]
    · intro h2
      cases h2
    · intro h2
      cases h2
    · simp
    · simp only [reduceCtorEq, false_and, iff_false]
      decide
  | none =>
    by_cases hk : component.Contract = ""
    · simp only [hk, ne_eq, not_true_eq_false, if_false]
      refine ⟨Entry.mk Level.warning []
        "Skipping unknown component (not code and not contract): %s"
        [FmtArg.str component.Name], rfl, rfl, ?_, ?_, ?_, ?_, ?_⟩
      · intro code h2
        cases h2
      · intro _ h2
        exact h2.elim
      · intro _ _
        refine ⟨rfl, rfl, rfl, ?_⟩
        apply String.ext
        simp [Entry.message, Sprintf, sprintfChars, FmtArg.render]
      · simp
      · simp
    · simp only [hk, ne_eq, not_false_eq_true, if_true]
      refine ⟨Entry.mk Level.info [] "Processing dependency on another contract: %s"
        [FmtArg.str component.Contract], rfl, rfl, ?_, ?_, ?_, ?_, ?_⟩
      · intro code h2
        cases h2
      · intro _ _
        refine ⟨rfl, rfl, rfl, ?_⟩
        apply String.ext
        simp [Entry.message, Sprintf, sprintfChars, FmtArg.render]
      · intro _ h2
        exact h2.elim
      · simp [hk]
      · simp only [hk, and_false, iff_false]
        decide

/-- C11 at a concrete node: the sample node at a component `db` that has code of type `helm`
and a contract as well gets one info entry naming `db` and `helm`. -/
theorem C11_logResolvingDependencyOnComponent_disposition_witness :
    ∃ e, resolutionNode.logResolvingDependencyOnComponent
          { sampleNode with
            component := some { Name := "db", Code := some { Type_ := "helm" },
                                Contract := "storage" } } = some [e] ∧
      e.level = Level.info ∧ e.args = [FmtArg.str "db", FmtArg.str "helm"] := by
  obtain ⟨e, h1, _, h2, _⟩ := C11_logResolvingDependencyOnComponent_disposition
    { sampleNode with
      component := some { Name := "db", Code := some { Type_ := "helm" },
                          Contract := "storage" } }
    { Name := "db", Code := some { Type_ := "helm" }, Contract := "storage" } rfl
  exact ⟨e, h1, (h2 _ rfl).1, (h2 _ rfl).2.2.1⟩

/-- C13: `storeEdge` ignores an empty key. If `key` or `keyDst` is empty, `storeEdge(key,
keyDst)` leaves the data as it is: the instance map has the same bindings, so no instance is
created, not even for the key that is not empty, and no edge is added; the processing order
and its index are the same. -/
theorem C13_storeEdge_ignores_empty_key (data : ServiceUsageData) (key keyDst : String)
    (h : key = "" ∨ keyDst = "") :
    data.storeEdge key keyDst = data ∧
      (data.storeEdge key keyDst).ComponentInstanceMap = data.ComponentInstanceMap ∧
      mapLookup (data.storeEdge key keyDst).ComponentInstanceMap key =
        mapLookup data.ComponentInstanceMap key ∧
      mapLookup (data.storeEdge key keyDst).ComponentInstanceMap keyDst =
        mapLookup data.ComponentInstanceMap keyDst ∧
      (∀ k, (data.storeEdge key keyDst).edgesIn k = data.edgesIn k ∧
        (data.storeEdge key keyDst).edgesOut k = data.edgesOut k) ∧
      (data.storeEdge key keyDst).ComponentProcessingOrder = data.ComponentProcessingOrder ∧
      (data.storeEdge key keyDst).componentProcessingOrderHas =
        data.componentProcessingOrderHas := by
  have he : data.storeEdge key keyDst = data := storeEdge_of_empty data key keyDst h
  rw [he]
  exact ⟨rfl, rfl, rfl, rfl, fun _ => ⟨rfl, rfl⟩, rfl, rfl⟩

/-- C13 at a concrete call: `storeEdge("a", "")` on fresh data creates no instance for `a`. -/
theorem C13_storeEdge_ignores_empty_key_witness :
    newServiceUsageData.storeEdge "a" "" = newServiceUsageData ∧
      mapLookup (newServiceUsageData.storeEdge "a" "").ComponentInstanceMap "a" = none := by
  have h := C13_storeEdge_ignores_empty_key newServiceUsageData "a" "" (Or.inr rfl)
  refine ⟨h.1, ?_⟩
  rw [h.2.2.1]
  rfl

theorem nodup_append_firstNew (order keys : List String) (h : order.Nodup) :
    (order ++ firstNew order keys).Nodup := by
  refine List.Nodup.append h (nodup_firstNew _ _) ?_
  intro k hk hk2
  exact ((mem_firstNew _ _ _).mp hk2).2 hk

theorem orderBuilt_invariant (data : ServiceUsageData) (h : OrderBuilt data) :
    data.orderConsistent ∧ data.ComponentProcessingOrder.Nodup := by
  induction h with
  | new =>
    constructor
    · intro k
      simp [ServiceUsageData.orderHas, newServiceUsageData, mapLookup]
    · simp [newServiceUsageData]
  | recordProcessingOrder data key _ ih =>
    obtain ⟨hc, hn⟩ := ih
    refine ⟨recordProcessingOrder_consistent data key hc, ?_⟩
    rw [recordProcessingOrder_order data key hc]
    by_cases hk : key ∈ data.ComponentProcessingOrder
    · simpa [hk] using hn
    · simp only [hk, if_false]
      exact List.Nodup.append hn (by simp) (by simpa using hk)
  | appendData data ops _ ih =>
    obtain ⟨hc, hn⟩ := ih
    have hc1 := foldl_updateEntry_consistent ops.ComponentInstanceMap data hc
    have ho1 := (foldl_updateEntry_order ops.ComponentInstanceMap data).2
    have hf := foldl_recordProcessingOrder ops.ComponentProcessingOrder _ hc1
    refine ⟨hf.1, ?_⟩
    have horder : (data.appendData ops).ComponentProcessingOrder =
        data.ComponentProcessingOrder ++
          firstNew data.ComponentProcessingOrder ops.ComponentProcessingOrder := by
      unfold ServiceUsageData.appendData
      simp only [hf.2.1, ho1]
    rw [horder]
    exact nodup_append_firstNew _ _ hn

theorem recordProcessingOrder_idempotent (data : ServiceUsageData) (key : String) :
    (data.recordProcessingOrder key).recordProcessingOrder key =
      data.recordProcessingOrder key := by
  apply recordProcessingOrder_of_has
  rw [orderHas_recordProcessingOrder]
  simp

theorem recordProcessingOrder_keeps_order (data : ServiceUsageData) (key : String) :
    data.ComponentProcessingOrder <+: (data.recordProcessingOrder key).ComponentProcessingOrder := by
  cases hh : data.orderHas key with
  | true =>
    rw [recordProcessingOrder_of_has _ _ hh]
  | false =>
    rw [recordProcessingOrder_of_not_has _ _ hh]
    exact ⟨[key], rfl⟩

/-- C14: the processing order never contains a key twice. In every data built from
`newServiceUsageData` by `recordProcessingOrder` and `appendData`, `ComponentProcessingOrder`
has no duplicate key and `componentProcessingOrderHas[k]` is true exactly for the keys `k` of
`ComponentProcessingOrder`. `recordProcessingOrder(key)` is idempotent: a second call with the
same key changes nothing. It never removes or reorders recorded keys: the old order is an
initial segment of the new one, which adds `key` at the end when it was not recorded. -/
theorem C14_processing_order_no_duplicates (data : ServiceUsageData) (h : OrderBuilt data)
    (key : String) :
    data.ComponentProcessingOrder.Nodup ∧
      (∀ k, data.orderHas k = true ↔ k ∈ data.ComponentProcessingOrder) ∧
      (data.recordProcessingOrder key).recordProcessingOrder key =
        data.recordProcessingOrder key ∧
      data.ComponentProcessingOrder <+:
        (data.recordProcessingOrder key).ComponentProcessingOrder ∧
      (data.recordProcessingOrder key).ComponentProcessingOrder =
        data.ComponentProcessingOrder ++
          (if key ∈ data.ComponentProcessingOrder then [] else [key]) := by
  obtain ⟨hc, hn⟩ := orderBuilt_invariant data h
  exact ⟨hn, hc, recordProcessingOrder_idempotent data key,
    recordProcessingOrder_keeps_order data key, recordProcessingOrder_order data key hc⟩

/-- C14 at a concrete run: recording `a`, `b`, `a` and merging data whose order is `[b, c, c]`
gives the order `[a, b, c]`, and recording `b` once more leaves it so. -/
theorem C14_processing_order_no_duplicates_witness :
    OrderBuilt ((((newServiceUsageData.recordProcessingOrder "a").recordProcessingOrder
        "b").recordProcessingOrder "a").appendData (ServiceUsageData.mk [] [] ["b", "c", "c"])) ∧
      ((((newServiceUsageData.recordProcessingOrder "a").recordProcessingOrder
        "b").recordProcessingOrder "a").appendData
          (ServiceUsageData.mk [] [] ["b", "c", "c"])).ComponentProcessingOrder =
        ["a", "b", "c"] ∧
      (((((newServiceUsageData.recordProcessingOrder "a").recordProcessingOrder
        "b").recordProcessingOrder "a").appendData
          (ServiceUsageData.mk [] [] ["b", "c", "c"])).recordProcessingOrder
            "b").ComponentProcessingOrder = ["a", "b", "c"] := by
  have hb : OrderBuilt ((((newServiceUsageData.recordProcessingOrder "a").recordProcessingOrder
      "b").recordProcessingOrder "a").appendData (ServiceUsageData.mk [] [] ["b", "c", "c"])) :=
    OrderBuilt.appendData _ _ (OrderBuilt.recordProcessingOrder _ _
      (OrderBuilt.recordProcessingOrder _ _ (OrderBuilt.recordProcessingOrder _ _ OrderBuilt.new)))
  have h := C14_processing_order_no_duplicates _ hb "b"
  refine ⟨hb, by decide, ?_⟩
  rw [h.2.2.2.2]
  decide

/-- C15: `logCannotResolveInstance` is total on partially filled nodes. Whether or not the
service and the component of the node are set, the call returns and appends exactly one
entry, of level warning and without fields; it reads the name of the service only when the
service is set and the name of the component only when both are set. The message names
`node.contractName` always, the service exactly when the service is set, and the component
exactly when the service and the component are both set: a component set without a service is
not named. -/
theorem C15_logCannotResolveInstance_total (node : resolutionNode) :
    ∃ e, node.logCannotResolveInstance = node.eventLog ++ [e] ∧
      e.level = Level.warning ∧ e.fields = [] ∧
      e.args = FmtArg.str node.contractName ::
        (match node.service with
          | none => []
          | some service => FmtArg.str service.Name ::
            (match node.component with
              | none => []
              | some component => [FmtArg.str component.Name])) ∧
      (node.service = none →
        e.format = "Cannot resolve instance: contract '%s'" ∧
          e.message = "Cannot resolve instance: contract '" ++ node.contractName ++ "'") ∧
      (∀ service, node.service = some service → node.component = none →
        e.format = "Cannot resolve instance: contract '%s', service '%s'" ∧
          e.message = "Cannot resolve instance: contract '" ++ node.contractName ++
            "', service '" ++ service.Name ++ "'") ∧
      (∀ service component, node.service = some service → node.component = some component →
        e.format = "Cannot resolve instance: contract '%s', service '%s', component '%s'" ∧
          e.message = "Cannot resolve instance: contract '" ++ node.contractName ++
            "', service '" ++ service.Name ++ "', component '" ++ component.Name ++ "'") := by
  unfold resolutionNode.logCannotResolveInstance
  cases hs : node.service with
  | none =>
    refine ⟨Entry.mk Level.warning [] "Cannot resolve instance: contract '%s'"
      [FmtArg.str node.contractName], rfl, rfl, rfl, rfl, ?_, ?_, ?_⟩
    · intro _
      refine ⟨rfl, ?_⟩
      apply String.ext
      simp [Entry.message, Sprintf, sprintfChars, FmtArg.render]
    · intro s h2
      cases h2
    · intro s c h2
      cases h2
  | some service =>
    cases hc : node.component with
    | none =>
      refine ⟨Entry.mk Level.warning []
        "Cannot resolve instance: contract '%s', service '%s'"
        [FmtArg.str node.contractName, FmtArg.str service.Name], rfl, rfl, rfl, rfl, ?_, ?_, ?_⟩
      · intro h2
        cases h2
      · intro s h2 _
        cases h2
        refine ⟨rfl, ?_⟩
        apply String.ext
        simp [Entry.message, Sprintf, sprintfChars, FmtArg.render]
      · intro s c _ h2
        cases h2
    | some component =>
      refine ⟨Entry.mk Level.warning []
        "Cannot resolve instance: contract '%s', service '%s', component '%s'"
        [FmtArg.str node.contractName, FmtArg.str service.Name, FmtArg.str component.Name],
        rfl, rfl, rfl, rfl, ?_, ?_, ?_⟩
      · intro h2
        cases h2
      · intro s _ h2
        cases h2
      · intro s c h2 h3
        cases h2
        cases h3
        refine ⟨rfl, ?_⟩
        apply String.ext
        simp [Entry.message, Sprintf, sprintfChars, FmtArg.render]

/-! ## Rounding to `float64` -/

theorem roundHalfEven_ge_floor (x : ℚ) : ⌊x⌋ ≤ roundHalfEven x := by
  unfold roundHalfEven
  split_ifs <;> omega

theorem roundHalfEven_le_floor_add_one (x : ℚ) : roundHalfEven x ≤ ⌊x⌋ + 1 := by
  unfold roundHalfEven
  split_ifs <;> omega

theorem roundHalfEven_intCast (n : ℤ) : roundHalfEven (n : ℚ) = n := by
  unfold roundHalfEven
  simp

theorem roundHalfEven_mono {x y : ℚ} (h : x ≤ y) : roundHalfEven x ≤ roundHalfEven y := by
  have hf : ⌊x⌋ ≤ ⌊y⌋ := Int.floor_mono h
  rcases hf.lt_or_eq with hlt | heq
  · have h1 := roundHalfEven_le_floor_add_one x
    have h2 := roundHalfEven_ge_floor y
    omega
  · unfold roundHalfEven
    rw [heq]
    split_ifs <;> first | omega | (exfalso; linarith)
theorem float64_zero : float64 0 = 0 := by
  simp [float64]

theorem float64_of_pos {x : ℚ} (hx : 0 < x) :
    float64 x = (roundHalfEven (x / 2 ^ (Int.log 2 x - 52)) : ℚ) * 2 ^ (Int.log 2 x - 52) := by
  unfold float64
  rw [if_neg (ne_of_gt hx), abs_of_pos hx]

theorem float64_nonneg {x : ℚ} (hx : 0 ≤ x) : 0 ≤ float64 x := by
  rcases hx.lt_or_eq with hpos | hzero
  · rw [float64_of_pos hpos]
    have h2 : (0 : ℚ) < 2 ^ (Int.log 2 x - 52) := zpow_pos (by norm_num) _
    have h3 : 0 ≤ x / 2 ^ (Int.log 2 x - 52) := le_of_lt (div_pos hpos h2)
    have h4 : (0 : ℤ) ≤ roundHalfEven (x / 2 ^ (Int.log 2 x - 52)) := by
      have := roundHalfEven_mono h3
      rwa [show roundHalfEven 0 = 0 from by simpa using roundHalfEven_intCast 0] at this
    have h5 : (0 : ℚ) ≤ (roundHalfEven (x / 2 ^ (Int.log 2 x - 52)) : ℚ) := by exact_mod_cast h4
    exact mul_nonneg h5 (le_of_lt h2)
  · rw [← hzero, float64_zero]

/-- A number with at most 53 significant bits is a `float64`: rounding leaves it as it is. -/
theorem float64_of_representable (n : ℕ) (k : ℤ) (hn : n < 2 ^ 53) :
    float64 ((n : ℚ) * 2 ^ k) = (n : ℚ) * 2 ^ k := by
  rcases Nat.eq_zero_or_pos n with h0 | hpos
  · subst h0
    simp [float64_zero]
  · have h2k : (0 : ℚ) < 2 ^ k := zpow_pos (by norm_num) _
    have hx : (0 : ℚ) < (n : ℚ) * 2 ^ k := mul_pos (by exact_mod_cast hpos) h2k
    rw [float64_of_pos hx]
    have hlt : (n : ℚ) * 2 ^ k < ((2 : ℕ) : ℚ) ^ (53 + k) := by
      rw [zpow_add₀ (by norm_num)]
      apply mul_lt_mul_of_pos_right _ (by exact_mod_cast h2k)
      exact_mod_cast hn
    have hlog : Int.log 2 ((n : ℚ) * 2 ^ k) < 53 + k :=
      (Int.lt_zpow_iff_log_lt (by norm_num) hx).mp hlt
    obtain ⟨j, hj⟩ : ∃ j : ℕ, k - (Int.log 2 ((n : ℚ) * 2 ^ k) - 52) = (j : ℤ) :=
      Int.eq_ofNat_of_zero_le (by omega)
    have hdiv : (n : ℚ) * 2 ^ k / 2 ^ (Int.log 2 ((n : ℚ) * 2 ^ k) - 52) =
        (((n * 2 ^ j : ℕ) : ℤ) : ℚ) := by
      rw [mul_div_assoc, ← zpow_sub₀ (by norm_num : (2 : ℚ) ≠ 0), hj, zpow_natCast]
      push_cast
      ring
    rw [hdiv, roundHalfEven_intCast]
    have hk : k = (j : ℤ) + (Int.log 2 ((n : ℚ) * 2 ^ k) - 52) := by omega
    conv_rhs => rw [hk, zpow_add₀ (by norm_num : (2 : ℚ) ≠ 0), zpow_natCast]
    push_cast
    ring

theorem float64_natCast (n : ℕ) (hn : n < 2 ^ 53) : float64 (n : ℚ) = n := by
  have := float64_of_representable n 0 hn
  simpa using this

/-- Rounding to `float64` is monotone (stated for non-negative numbers). -/
theorem float64_mono {x y : ℚ} (hx : 0 ≤ x) (h : x ≤ y) : float64 x ≤ float64 y := by
  rcases hx.lt_or_eq with hpos | hzero
  · have hy : 0 < y := lt_of_lt_of_le hpos h
    have hlog : Int.log 2 x ≤ Int.log 2 y := Int.log_mono_right hpos h
    rw [float64_of_pos hpos, float64_of_pos hy]
    rcases hlog.lt_or_eq with hlt | heq
    · -- different binades: a power of two lies between the two results
      have h2x : (0 : ℚ) < 2 ^ (Int.log 2 x - 52) := zpow_pos (by norm_num) _
      have h2y : (0 : ℚ) < 2 ^ (Int.log 2 y - 52) := zpow_pos (by norm_num) _
      have hxlt : x < (2 : ℚ) ^ (Int.log 2 x + 1) := by
        have := Int.lt_zpow_succ_log_self (b := 2) (by norm_num) x
        exact_mod_cast this
      have hyge : (2 : ℚ) ^ (Int.log 2 y) ≤ y := by
        have := Int.zpow_log_le_self (b := 2) (r := y) (by norm_num) hy
        exact_mod_cast this
      have hx1 : x / 2 ^ (Int.log 2 x - 52) ≤ (((2 ^ 53 : ℕ) : ℤ) : ℚ) := by
        rw [div_le_iff₀ h2x]
        have : (((2 ^ 53 : ℕ) : ℤ) : ℚ) * 2 ^ (Int.log 2 x - 52) = 2 ^ (Int.log 2 x + 1) := by
          have : Int.log 2 x + 1 = 53 + (Int.log 2 x - 52) := by ring
          rw [this, zpow_add₀ (by norm_num : (2 : ℚ) ≠ 0)]
          norm_num
        rw [this]
        exact le_of_lt hxlt
      have hy1 : (((2 ^ 52 : ℕ) : ℤ) : ℚ) ≤ y / 2 ^ (Int.log 2 y - 52) := by
        rw [le_div_iff₀ h2y]
        have : (((2 ^ 52 : ℕ) : ℤ) : ℚ) * 2 ^ (Int.log 2 y - 52) = 2 ^ (Int.log 2 y) := by
          have : Int.log 2 y = 52 + (Int.log 2 y - 52) := by ring
          conv_rhs => rw [this, zpow_add₀ (by norm_num : (2 : ℚ) ≠ 0)]
          norm_num
        rw [this]
        exact hyge
      have hrx := roundHalfEven_mono hx1
      have hry := roundHalfEven_mono hy1
      rw [roundHalfEven_intCast] at hrx hry
      have hrx2 : (roundHalfEven (x / 2 ^ (Int.log 2 x - 52)) : ℚ) ≤ 2 ^ 53 := by
        exact_mod_cast hrx
      have hry2 : (2 : ℚ) ^ 52 ≤ (roundHalfEven (y / 2 ^ (Int.log 2 y - 52)) : ℚ) := by
        exact_mod_cast hry
      calc (roundHalfEven (x / 2 ^ (Int.log 2 x - 52)) : ℚ) * 2 ^ (Int.log 2 x - 52)
          ≤ 2 ^ 53 * 2 ^ (Int.log 2 x - 52) := mul_le_mul_of_nonneg_right hrx2 (le_of_lt h2x)
        _ = 2 ^ (Int.log 2 x + 1) := by
            have : Int.log 2 x + 1 = 53 + (Int.log 2 x - 52) := by ring
            rw [this, zpow_add₀ (by norm_num : (2 : ℚ) ≠ 0)]
            norm_num
        _ ≤ 2 ^ (Int.log 2 y) := zpow_le_zpow_right₀ (by norm_num) (by omega)
        _ = 2 ^ 52 * 2 ^ (Int.log 2 y - 52) := by
            have : Int.log 2 y = 52 + (Int.log 2 y - 52) := by ring
            conv_lhs => rw [this, zpow_add₀ (by norm_num : (2 : ℚ) ≠ 0)]
            norm_num
        _ ≤ (roundHalfEven (y / 2 ^ (Int.log 2 y - 52)) : ℚ) * 2 ^ (Int.log 2 y - 52) :=
            mul_le_mul_of_nonneg_right hry2 (le_of_lt h2y)
    · rw [heq]
      have h2y : (0 : ℚ) < 2 ^ (Int.log 2 y - 52) := zpow_pos (by norm_num) _
      have hdiv : x / 2 ^ (Int.log 2 y - 52) ≤ y / 2 ^ (Int.log 2 y - 52) :=
        div_le_div_of_nonneg_right h (le_of_lt h2y)
      have hr := roundHalfEven_mono hdiv
      have hr2 : (roundHalfEven (x / 2 ^ (Int.log 2 y - 52)) : ℚ) ≤
          (roundHalfEven (y / 2 ^ (Int.log 2 y - 52)) : ℚ) := by exact_mod_cast hr
      exact mul_le_mul_of_nonneg_right hr2 (le_of_lt h2y)
  · rw [← hzero, float64_zero]
    exact float64_nonneg (hzero ▸ h)
theorem float64_le_of_le_representable {x : ℚ} (hx : 0 ≤ x) (n : ℕ) (k : ℤ) (hn : n < 2 ^ 53)
    (h : x ≤ (n : ℚ) * 2 ^ k) : float64 x ≤ (n : ℚ) * 2 ^ k :=
  (float64_mono hx h).trans_eq (float64_of_representable n k hn)

theorem le_float64_of_representable_le {x : ℚ} (n : ℕ) (k : ℤ) (hn : n < 2 ^ 53)
    (h : (n : ℚ) * 2 ^ k ≤ x) : (n : ℚ) * 2 ^ k ≤ float64 x := by
  have h0 : (0 : ℚ) ≤ (n : ℚ) * 2 ^ k :=
    mul_nonneg (by exact_mod_cast Nat.zero_le n) (le_of_lt (zpow_pos (by norm_num) _))
  exact (float64_of_representable n k hn).symm.trans_le (float64_mono h0 h)

/-- The value that `Seconds()`, `Minutes()` and `Hours()` compute from `q` whole units and a
remainder of `r` out of `N` nanoseconds: it lies between `q` and `q + 1`, and below `q + 1`
by at least `2^-p` when `N ≤ 2^p` and `q + 1 ≤ 2^(53-p)`. -/
theorem float64_unit_bounds (q r N p : ℕ) (hr : r < N) (hNp : N ≤ 2 ^ p) (hp : p ≤ 52)
    (hq : q + 1 < 2 ^ 53) (hr53 : r < 2 ^ 53) :
    (q : ℚ) ≤ float64 (float64 (q : ℚ) + float64 (float64 (r : ℚ) / (N : ℚ))) ∧
      float64 (float64 (q : ℚ) + float64 (float64 (r : ℚ) / (N : ℚ))) ≤ (q : ℚ) + 1 ∧
      ((q + 1) * 2 ^ p ≤ 2 ^ 53 →
        float64 (float64 (q : ℚ) + float64 (float64 (r : ℚ) / (N : ℚ))) ≤
          (q : ℚ) + 1 - 1 / 2 ^ p) := by
  have hN0 : (0 : ℚ) < (N : ℚ) := by
    have : 0 < N := lt_of_le_of_lt (Nat.zero_le r) hr
    exact_mod_cast this
  have h2p : (0 : ℚ) < 2 ^ p := pow_pos (by norm_num) p
  rw [float64_natCast q (by omega), float64_natCast r hr53]
  -- the fraction
  have hfrac0 : (0 : ℚ) ≤ (r : ℚ) / (N : ℚ) :=
    div_nonneg (by exact_mod_cast Nat.zero_le r) (le_of_lt hN0)
  have hfrac1 : (r : ℚ) / (N : ℚ) ≤ 1 - 1 / 2 ^ p := by
    have h1 : (r : ℚ) ≤ (N : ℚ) - 1 := by
      have : r + 1 ≤ N := hr
      have : ((r + 1 : ℕ) : ℚ) ≤ (N : ℚ) := by exact_mod_cast this
      push_cast at this
      linarith
    have h2 : (r : ℚ) / (N : ℚ) ≤ 1 - 1 / (N : ℚ) := by
      rw [div_le_iff₀ hN0]
      have : (1 - 1 / (N : ℚ)) * (N : ℚ) = (N : ℚ) - 1 := by
        field_simp
      rw [this]
      exact h1
    have h3 : 1 / (2 : ℚ) ^ p ≤ 1 / (N : ℚ) := by
      apply one_div_le_one_div_of_le hN0
      exact_mod_cast hNp
    linarith
  have hpow : (2 : ℕ) ^ p ≤ 2 ^ 52 := Nat.pow_le_pow_right (by norm_num) hp
  have hone : (0 : ℕ) < 2 ^ p := by positivity
  have hrep1 : (((2 ^ p - 1 : ℕ) : ℚ)) * 2 ^ (-(p : ℤ)) = 1 - 1 / 2 ^ p := by
    rw [Nat.cast_sub hone, zpow_neg, zpow_natCast]
    push_cast
    field_simp
  have hf0 : (0 : ℚ) ≤ float64 ((r : ℚ) / (N : ℚ)) := float64_nonneg hfrac0
  have hf1 : float64 ((r : ℚ) / (N : ℚ)) ≤ 1 - 1 / 2 ^ p := by
    rw [← hrep1]
    apply float64_le_of_le_representable hfrac0 _ _ (by omega)
    rw [hrep1]
    exact hfrac1
  have hsum0 : (0 : ℚ) ≤ (q : ℚ) + float64 ((r : ℚ) / (N : ℚ)) :=
    add_nonneg (by exact_mod_cast Nat.zero_le q) hf0
  have hp0 : (0 : ℚ) < 1 / 2 ^ p := by positivity
  refine ⟨?_, ?_, ?_⟩
  · have := le_float64_of_representable_le (x := (q : ℚ) + float64 ((r : ℚ) / (N : ℚ))) q 0
      (by omega) (by simpa using hf0)
    simpa using this
  · have := float64_le_of_le_representable hsum0 (q + 1) 0 hq
      (by push_cast; simp only [zpow_zero, mul_one]; linarith)
    simpa using this
  · intro hbig
    have hrep2 : ((((q + 1) * 2 ^ p - 1 : ℕ)) : ℚ) * 2 ^ (-(p : ℤ)) = (q : ℚ) + 1 - 1 / 2 ^ p := by
      have hpos : 1 ≤ (q + 1) * 2 ^ p := Nat.one_le_iff_ne_zero.mpr (by positivity)
      rw [Nat.cast_sub hpos, zpow_neg, zpow_natCast]
      push_cast
      field_simp
    rw [← hrep2]
    apply float64_le_of_le_representable hsum0 _ _ (by omega)
    rw [hrep2]
    linarith

theorem goInt_of_nonneg {x : ℚ} (hx : 0 ≤ x) : goInt x = ⌊x⌋ := by
  simp [goInt, hx]

/-- Flooring the `float64` quotient by 86400 gives the integer quotient. -/
theorem floor_float64_div_86400 (s : ℕ) (hs : s < 2 ^ 36) :
    ⌊float64 (float64 (s : ℚ) / 86400)⌋ = ((s / 86400 : ℕ) : ℤ) := by
  rw [float64_natCast s (by omega)]
  have hdm : 86400 * (s / 86400) + s % 86400 = s := Nat.div_add_mod s 86400
  have hmod : s % 86400 < 86400 := Nat.mod_lt _ (by norm_num)
  have hsq : (s : ℚ) = 86400 * ((s / 86400 : ℕ) : ℚ) + ((s % 86400 : ℕ) : ℚ) := by
    exact_mod_cast hdm.symm
  have hr0 : (0 : ℚ) ≤ ((s % 86400 : ℕ) : ℚ) := by exact_mod_cast Nat.zero_le _
  have hr1 : ((s % 86400 : ℕ) : ℚ) ≤ 86399 := by
    have : s % 86400 ≤ 86399 := by omega
    exact_mod_cast this
  have hlo : ((s / 86400 : ℕ) : ℚ) ≤ (s : ℚ) / 86400 := by
    rw [le_div_iff₀ (by norm_num)]
    linarith
  have hhi : (s : ℚ) / 86400 ≤ ((s / 86400 : ℕ) : ℚ) + 1 - 1 / 2 ^ 17 := by
    rw [div_le_iff₀ (by norm_num)]
    norm_num
    linarith
  have hq0 : (0 : ℚ) ≤ (s : ℚ) / 86400 :=
    div_nonneg (by exact_mod_cast Nat.zero_le s) (by norm_num)
  have hk : s / 86400 < 2 ^ 20 := by omega
  have hrep : ((((s / 86400 + 1) * 2 ^ 17 - 1 : ℕ)) : ℚ) * 2 ^ (-(17 : ℤ)) =
      ((s / 86400 : ℕ) : ℚ) + 1 - 1 / 2 ^ 17 := by
    have hpos : 1 ≤ (s / 86400 + 1) * 2 ^ 17 := by omega
    rw [Nat.cast_sub hpos, zpow_neg]
    push_cast
    norm_num
    ring
  have h1 : ((s / 86400 : ℕ) : ℚ) ≤ float64 ((s : ℚ) / 86400) := by
    have := le_float64_of_representable_le (x := (s : ℚ) / 86400) (s / 86400) 0 (by omega)
      (by simpa using hlo)
    simpa using this
  have h2 : float64 ((s : ℚ) / 86400) ≤ ((s / 86400 : ℕ) : ℚ) + 1 - 1 / 2 ^ 17 := by
    rw [← hrep]
    apply float64_le_of_le_representable hq0 _ _ (by omega)
    rw [hrep]
    exact hhi
  rw [Int.floor_eq_iff]
  constructor
  · exact_mod_cast h1
  · have hpos : (0 : ℚ) < 1 / 2 ^ 17 := by norm_num
    have h3 : float64 ((s : ℚ) / 86400) < ((s / 86400 : ℕ) : ℚ) + 1 := by linarith
    exact_mod_cast h3

/-! ## Durations -/

theorem goInt_unit_bounds (q r N p : ℕ) (hr : r < N) (hNp : N ≤ 2 ^ p) (hp : p ≤ 52)
    (hq : q + 1 < 2 ^ 53) (hr53 : r < 2 ^ 53) :
    (q : ℤ) ≤ goInt (float64 (float64 (q : ℚ) + float64 (float64 (r : ℚ) / (N : ℚ)))) ∧
      goInt (float64 (float64 (q : ℚ) + float64 (float64 (r : ℚ) / (N : ℚ)))) ≤ (q : ℤ) + 1 ∧
      ((q + 1) * 2 ^ p ≤ 2 ^ 53 →
        goInt (float64 (float64 (q : ℚ) + float64 (float64 (r : ℚ) / (N : ℚ)))) = (q : ℤ)) := by
  obtain ⟨h1, h2, h3⟩ := float64_unit_bounds q r N p hr hNp hp hq hr53
  have hq0 : (0 : ℚ) ≤ (q : ℚ) := by exact_mod_cast Nat.zero_le q
  rw [goInt_of_nonneg (le_trans hq0 h1)]
  refine ⟨?_, ?_, ?_⟩
  · rw [Int.le_floor]
    exact_mod_cast h1
  · have : ⌊float64 (float64 (q : ℚ) + float64 (float64 (r : ℚ) / (N : ℚ)))⌋ ≤ ⌊(q : ℚ) + 1⌋ :=
      Int.floor_mono h2
    have h4 : ⌊(q : ℚ) + 1⌋ = (q : ℤ) + 1 := by
      have : ((q : ℚ) + 1) = (((q : ℤ) + 1 : ℤ) : ℚ) := by push_cast; rfl
      rw [this, Int.floor_intCast]
    rw [h4] at this
    exact this
  · intro hbig
    have h5 := h3 hbig
    have hpos : (0 : ℚ) < 1 / 2 ^ p := by positivity
    rw [Int.floor_eq_iff]
    constructor
    · exact_mod_cast h1
    · have h6 : float64 (float64 (q : ℚ) + float64 (float64 (r : ℚ) / (N : ℚ))) < (q : ℚ) + 1 := by
        linarith
      exact_mod_cast h6

theorem inSeconds_natCast (n : ℕ) (hn : n < 2 ^ 63) :
    ((n / 1000000000 : ℕ) : ℤ) ≤ (NewTimeDiff n).InSeconds ∧
      (NewTimeDiff n).InSeconds ≤ ((n / 1000000000 : ℕ) : ℤ) + 1 ∧
      (n / 1000000000 < 2 ^ 23 → (NewTimeDiff n).InSeconds = ((n / 1000000000 : ℕ) : ℤ)) := by
  have hmod : n % 1000000000 < 1000000000 := Nat.mod_lt _ (by norm_num)
  obtain ⟨h1, h2, h3⟩ := goInt_unit_bounds (n / 1000000000) (n % 1000000000) 1000000000 30
    hmod (by norm_num) (by norm_num) (by omega) (by omega)
  have hdiv : ((n : ℤ).tdiv Second : ℤ) = ((n / 1000000000 : ℕ) : ℤ) := rfl
  have hrem : ((n : ℤ).tmod Second : ℤ) = ((n % 1000000000 : ℕ) : ℤ) := rfl
  have hS : (NewTimeDiff n).InSeconds =
      goInt (float64 (float64 ((n / 1000000000 : ℕ) : ℚ) +
        float64 (float64 ((n % 1000000000 : ℕ) : ℚ) / ((1000000000 : ℕ) : ℚ)))) := by
    simp only [TimeDiff.InSeconds, NewTimeDiff, durationSeconds, hdiv, hrem, Int.cast_natCast]
    norm_num
  rw [hS]
  exact ⟨h1, h2, fun h => h3 (by omega)⟩

theorem inMinutes_natCast (n : ℕ) (hn : n < 2 ^ 63) :
    ((n / 60000000000 : ℕ) : ℤ) ≤ (NewTimeDiff n).InMinutes ∧
      (NewTimeDiff n).InMinutes ≤ ((n / 60000000000 : ℕ) : ℤ) + 1 ∧
      (n / 60000000000 < 2 ^ 17 → (NewTimeDiff n).InMinutes = ((n / 60000000000 : ℕ) : ℤ)) := by
  have hmod : n % 60000000000 < 60000000000 := Nat.mod_lt _ (by norm_num)
  obtain ⟨h1, h2, h3⟩ := goInt_unit_bounds (n / 60000000000) (n % 60000000000) 60000000000 36
    hmod (by norm_num) (by norm_num) (by omega) (by omega)
  have hdiv : ((n : ℤ).tdiv Minute : ℤ) = ((n / 60000000000 : ℕ) : ℤ) := rfl
  have hrem : ((n : ℤ).tmod Minute : ℤ) = ((n % 60000000000 : ℕ) : ℤ) := rfl
  have hS : (NewTimeDiff n).InMinutes =
      goInt (float64 (float64 ((n / 60000000000 : ℕ) : ℚ) +
        float64 (float64 ((n % 60000000000 : ℕ) : ℚ) / ((60000000000 : ℕ) : ℚ)))) := by
    simp only [TimeDiff.InMinutes, NewTimeDiff, durationMinutes, hdiv, hrem, Int.cast_natCast]
    norm_num
  rw [hS]
  exact ⟨h1, h2, fun h => h3 (by omega)⟩

theorem inHours_natCast (n : ℕ) (hn : n < 2 ^ 63) :
    ((n / 3600000000000 : ℕ) : ℤ) ≤ (NewTimeDiff n).InHours ∧
      (NewTimeDiff n).InHours ≤ ((n / 3600000000000 : ℕ) : ℤ) + 1 ∧
      (n / 3600000000000 < 2 ^ 11 →
        (NewTimeDiff n).InHours = ((n / 3600000000000 : ℕ) : ℤ)) := by
  have hmod : n % 3600000000000 < 3600000000000 := Nat.mod_lt _ (by norm_num)
  obtain ⟨h1, h2, h3⟩ := goInt_unit_bounds (n / 3600000000000) (n % 3600000000000)
    3600000000000 42 hmod (by norm_num) (by norm_num) (by omega) (by omega)
  have hdiv : ((n : ℤ).tdiv Hour : ℤ) = ((n / 3600000000000 : ℕ) : ℤ) := rfl
  have hrem : ((n : ℤ).tmod Hour : ℤ) = ((n % 3600000000000 : ℕ) : ℤ) := rfl
  have hS : (NewTimeDiff n).InHours =
      goInt (float64 (float64 ((n / 3600000000000 : ℕ) : ℚ) +
        float64 (float64 ((n % 3600000000000 : ℕ) : ℚ) / ((3600000000000 : ℕ) : ℚ)))) := by
    simp only [TimeDiff.InHours, NewTimeDiff, durationHours, hdiv, hrem, Int.cast_natCast]
    norm_num
  rw [hS]
  exact ⟨h1, h2, fun h => h3 (by omega)⟩

theorem inDays_eq (d : TimeDiff) (s : ℕ) (hs : d.InSeconds = (s : ℤ)) (hlt : s < 2 ^ 36) :
    d.InDays = ((s / 86400 : ℕ) : ℤ) := by
  unfold TimeDiff.InDays
  rw [hs, Int.cast_natCast, floor_float64_div_86400 s hlt]
  rw [goInt_of_nonneg (by exact_mod_cast Nat.zero_le _)]
  exact Int.floor_intCast _
theorem roundHalfEven_eq_of_near (x : ℚ) (m : ℤ) (h1 : (m : ℚ) - 1 / 2 < x)
    (h2 : x < (m : ℚ) + 1 / 2) : roundHalfEven x = m := by
  by_cases hx : (m : ℚ) ≤ x
  · have hf : ⌊x⌋ = m := by
      rw [Int.floor_eq_iff]
      exact ⟨hx, by linarith⟩
    unfold roundHalfEven
    rw [hf, if_pos (by linarith)]
  · have hx2 : x < (m : ℚ) := lt_of_not_le hx
    have hf : ⌊x⌋ = m - 1 := by
      rw [Int.floor_eq_iff]
      push_cast
      exact ⟨by linarith, by linarith⟩
    unfold roundHalfEven
    rw [hf]
    push_cast
    rw [if_neg (by linarith), if_pos (by linarith)]
    ring

theorem int_log_two_eq (x : ℚ) (L : ℤ) (hx : 0 < x) (h1 : (2 : ℚ) ^ L ≤ x)
    (h2 : x < (2 : ℚ) ^ (L + 1)) : Int.log 2 x = L := by
  have ha : L ≤ Int.log 2 x :=
    (Int.zpow_le_iff_le_log (b := 2) (by norm_num) hx).mp (by exact_mod_cast h1)
  have hb : Int.log 2 x < L + 1 :=
    (Int.lt_zpow_iff_log_lt (b := 2) (by norm_num) hx).mp (by exact_mod_cast h2)
  omega

/-- The `float64` sum of 17279999 seconds and the fraction of 999999999 nanoseconds is
17280000: the exact sum is nearer to 17280000 than to the `float64` below it. -/
theorem float64_near_17280000 (x : ℚ) (h1 : (17280000 : ℚ) - 3 / 2 ^ 31 ≤ x)
    (h2 : x ≤ 17280000) : float64 x = 17280000 := by
  apply le_antisymm
  · have := float64_le_of_le_representable (x := x) (by linarith) 17280000 0 (by norm_num)
      (by simpa using h2)
    simpa using this
  · have hz : (0 : ℚ) < (17280000 : ℚ) - 3 / 2 ^ 31 := by norm_num
    have hlog : Int.log 2 ((17280000 : ℚ) - 3 / 2 ^ 31) = 24 :=
      int_log_two_eq _ 24 hz (by norm_num) (by norm_num)
    have hval : float64 ((17280000 : ℚ) - 3 / 2 ^ 31) = 17280000 := by
      rw [float64_of_pos hz, hlog]
      rw [roundHalfEven_eq_of_near _ (17280000 * 2 ^ 28) (by norm_num) (by norm_num)]
      norm_num
    calc (17280000 : ℚ) = float64 ((17280000 : ℚ) - 3 / 2 ^ 31) := hval.symm
      _ ≤ float64 x := float64_mono (le_of_lt hz) h1

theorem inSeconds_200_days_less_1ns :
    (NewTimeDiff 17279999999999999).InSeconds = 17280000 := by
  have hfrac0 : (0 : ℚ) ≤ (999999999 : ℚ) / 1000000000 := by norm_num
  have hlo : (1 : ℚ) - 3 / 2 ^ 31 ≤ float64 ((999999999 : ℚ) / 1000000000) := by
    have := le_float64_of_representable_le (x := (999999999 : ℚ) / 1000000000) (2 ^ 31 - 3)
      (-31) (by norm_num) (by norm_num)
    have h2 : (((2 ^ 31 - 3 : ℕ) : ℚ)) * 2 ^ (-31 : ℤ) = 1 - 3 / 2 ^ 31 := by norm_num
    rwa [h2] at this
  have hhi : float64 ((999999999 : ℚ) / 1000000000) ≤ 1 := by
    have := float64_le_of_le_representable hfrac0 1 0 (by norm_num) (by norm_num)
    simpa using this
  have hq : float64 ((17279999 : ℕ) : ℚ) = ((17279999 : ℕ) : ℚ) :=
    float64_natCast 17279999 (by norm_num)
  have hr : float64 ((999999999 : ℕ) : ℚ) = ((999999999 : ℕ) : ℚ) :=
    float64_natCast 999999999 (by norm_num)
  have hdiv : ((17279999999999999 : ℤ).tdiv Second : ℤ) = 17279999 := by decide
  have hrem : ((17279999999999999 : ℤ).tmod Second : ℤ) = 999999999 := by decide
  have hS : durationSeconds 17279999999999999 = 17280000 := by
    unfold durationSeconds
    rw [hdiv, hrem]
    push_cast at hq hr ⊢
    rw [hq, hr]
    apply float64_near_17280000
    · linarith
    · linarith
  unfold TimeDiff.InSeconds NewTimeDiff
  simp only [hS]
  rw [goInt_of_nonneg (by norm_num)]
  exact Int.floor_eq_iff.mpr ⟨by norm_num, by norm_num⟩
theorem sprintf_sec (k : Int) : Sprintf "%d sec" [FmtArg.int k] = toString k ++ " sec" := by
  apply String.ext
  simp [Sprintf, sprintfChars, FmtArg.render]

theorem sprintf_min (k : Int) : Sprintf "%d min" [FmtArg.int k] = toString k ++ " min" := by
  apply String.ext
  simp [Sprintf, sprintfChars, FmtArg.render]

theorem sprintf_hours (k : Int) : Sprintf "%d hours" [FmtArg.int k] = toString k ++ " hours" := by
  apply String.ext
  simp [Sprintf, sprintfChars, FmtArg.render]

theorem sprintf_days (k : Int) : Sprintf "%d days" [FmtArg.int k] = toString k ++ " days" := by
  apply String.ext
  simp [Sprintf, sprintfChars, FmtArg.render]

theorem inDays_natCast (n : ℕ) (hn : n < 2 ^ 63) :
    (NewTimeDiff n).InDays = (NewTimeDiff n).InSeconds / 86400 := by
  obtain ⟨h1, h2, _⟩ := inSeconds_natCast n hn
  obtain ⟨s, hs⟩ : ∃ s : ℕ, (NewTimeDiff n).InSeconds = (s : ℤ) :=
    Int.eq_ofNat_of_zero_le (le_trans (Int.natCast_nonneg _) h1)
  have hlt : s < 2 ^ 36 := by
    have : (s : ℤ) ≤ ((n / 1000000000 : ℕ) : ℤ) + 1 := hs ▸ h2
    omega
  rw [inDays_eq _ s hs hlt, hs]
  norm_cast

/-- `Humanize` in terms of the whole seconds, minutes and hours of a non-negative duration of
`n` nanoseconds; the days are counted from the seconds that `InSeconds` returns. -/
theorem humanize_natCast (n : ℕ) (hn : n < 2 ^ 63) :
    (NewTimeDiff n).Humanize =
      humanizeOf ((n / 1000000000 : ℕ) : ℤ) ((n / 60000000000 : ℕ) : ℤ)
        ((n / 3600000000000 : ℕ) : ℤ) ((NewTimeDiff n).InSeconds / 86400) := by
  obtain ⟨hs1, hs2, hs3⟩ := inSeconds_natCast n hn
  obtain ⟨hm1, hm2, hm3⟩ := inMinutes_natCast n hn
  obtain ⟨hh1, hh2, hh3⟩ := inHours_natCast n hn
  unfold TimeDiff.Humanize humanizeOf
  simp only []
  by_cases c1 : n / 1000000000 ≤ 90
  · have hs : (NewTimeDiff n).InSeconds = ((n / 1000000000 : ℕ) : ℤ) := hs3 (by omega)
    rw [hs, sprintf_sec]
    by_cases c0 : n / 1000000000 ≤ 45
    · have c0z : ((n / 1000000000 : ℕ) : ℤ) ≤ 45 := by exact_mod_cast c0
      rw [if_pos c0z, if_pos c0z]
    · have c0z : ¬ ((n / 1000000000 : ℕ) : ℤ) ≤ 45 := by
        intro h
        exact c0 (by exact_mod_cast h)
      have c1z : ((n / 1000000000 : ℕ) : ℤ) ≤ 90 := by exact_mod_cast c1
      rw [if_neg c0z, if_neg c0z, if_pos c1z, if_pos c1z]
  · have c1z : (90 : ℤ) < ((n / 1000000000 : ℕ) : ℤ) := by
      have : 90 < n / 1000000000 := Nat.lt_of_not_le c1
      exact_mod_cast this
    have a1 : ¬ (NewTimeDiff n).InSeconds ≤ 45 := by omega
    have a2 : ¬ (NewTimeDiff n).InSeconds ≤ 90 := by omega
    have b1 : ¬ ((n / 1000000000 : ℕ) : ℤ) ≤ 45 := by omega
    have b2 : ¬ ((n / 1000000000 : ℕ) : ℤ) ≤ 90 := by omega
    rw [if_neg a1, if_neg a2, if_neg b1, if_neg b2]
    by_cases c3 : n / 60000000000 ≤ 90
    · have hm : (NewTimeDiff n).InMinutes = ((n / 60000000000 : ℕ) : ℤ) := hm3 (by omega)
      rw [hm, sprintf_min]
      by_cases c2 : n / 60000000000 ≤ 45
      · have c2z : ((n / 60000000000 : ℕ) : ℤ) ≤ 45 := by exact_mod_cast c2
        rw [if_pos c2z, if_pos c2z]
      · have c2z : ¬ ((n / 60000000000 : ℕ) : ℤ) ≤ 45 := by
          intro h
          exact c2 (by exact_mod_cast h)
        have c3z : ((n / 60000000000 : ℕ) : ℤ) ≤ 90 := by exact_mod_cast c3
        rw [if_neg c2z, if_neg c2z, if_pos c3z, if_pos c3z]
    · have c3z : (90 : ℤ) < ((n / 60000000000 : ℕ) : ℤ) := by
        have : 90 < n / 60000000000 := Nat.lt_of_not_le c3
        exact_mod_cast this
      have a3 : ¬ (NewTimeDiff n).InMinutes ≤ 45 := by omega
      have a4 : ¬ (NewTimeDiff n).InMinutes ≤ 90 := by omega
      have b3 : ¬ ((n / 60000000000 : ℕ) : ℤ) ≤ 45 := by omega
      have b4 : ¬ ((n / 60000000000 : ℕ) : ℤ) ≤ 90 := by omega
      rw [if_neg a3, if_neg a4, if_neg b3, if_neg b4]
      by_cases c5 : n / 3600000000000 ≤ 36
      · have hh : (NewTimeDiff n).InHours = ((n / 3600000000000 : ℕ) : ℤ) := hh3 (by omega)
        rw [hh, sprintf_hours]
        by_cases c4 : n / 3600000000000 ≤ 22
        · have c4z : ((n / 3600000000000 : ℕ) : ℤ) ≤ 22 := by exact_mod_cast c4
          rw [if_pos c4z, if_pos c4z]
        · have c4z : ¬ ((n / 3600000000000 : ℕ) : ℤ) ≤ 22 := by
            intro h
            exact c4 (by exact_mod_cast h)
          have c5z : ((n / 3600000000000 : ℕ) : ℤ) ≤ 36 := by exact_mod_cast c5
          rw [if_neg c4z, if_neg c4z, if_pos c5z, if_pos c5z]
      · have c5z : (36 : ℤ) < ((n / 3600000000000 : ℕ) : ℤ) := by
          have : 36 < n / 3600000000000 := Nat.lt_of_not_le c5
          exact_mod_cast this
        have a5 : ¬ (NewTimeDiff n).InHours ≤ 22 := by omega
        have a6 : ¬ (NewTimeDiff n).InHours ≤ 36 := by omega
        have b5 : ¬ ((n / 3600000000000 : ℕ) : ℤ) ≤ 22 := by omega
        have b6 : ¬ ((n / 3600000000000 : ℕ) : ℤ) ≤ 36 := by omega
        rw [if_neg a5, if_neg a6, if_neg b5, if_neg b6, sprintf_days, inDays_natCast n hn]

/-- C12, as the code has it: `Humanize` returns a short string given by fixed thresholds. For
every non-negative duration (an `int64` of nanoseconds) with `s` whole seconds, `m` whole
minutes and `h` whole hours, each truncated, the result is `<s> sec` if `s ≤ 45`; `1 min` if
`45 < s ≤ 90`; otherwise `<m> min` if `m ≤ 45`; `1 hour` if `45 < m ≤ 90`; otherwise
`<h> hours` if `h ≤ 22`; `1 day` if `22 < h ≤ 36`; otherwise `<d> days`, where
`d = floor(s' / 86400)` is `InDays` and `s'` is the value of `InSeconds`, the `float64` of
`Seconds()` truncated. `s'` is `s` or `s + 1`, and it is `s` for every duration under `2^23`
seconds, for which the days are therefore `floor(s / 86400)`. -/
theorem C12_humanize_thresholds (d : TimeDiff) (h0 : 0 ≤ d.duration)
    (h63 : d.duration < 2 ^ 63) :
    d.Humanize = humanizeOf (d.duration / Second) (d.duration / Minute) (d.duration / Hour)
        (d.InSeconds / 86400) ∧
      d.InDays = d.InSeconds / 86400 ∧
      d.duration / Second ≤ d.InSeconds ∧ d.InSeconds ≤ d.duration / Second + 1 ∧
      (d.duration / Second < 2 ^ 23 →
        d.InSeconds = d.duration / Second ∧
          d.Humanize = humanizeOf (d.duration / Second) (d.duration / Minute)
            (d.duration / Hour) (d.duration / Second / 86400)) := by
  obtain ⟨dur⟩ := d
  obtain ⟨n, hn⟩ := Int.eq_ofNat_of_zero_le h0
  simp only at hn h63 ⊢
  subst hn
  have hn63 : n < 2 ^ 63 := by exact_mod_cast h63
  have eS : Second = 1000000000 := rfl
  have eM : Minute = 60000000000 := by decide
  have eH : Hour = 3600000000000 := by decide
  have hS : ((n : ℤ) / Second) = ((n / 1000000000 : ℕ) : ℤ) := by
    rw [eS]; omega
  have hM : ((n : ℤ) / Minute) = ((n / 60000000000 : ℕ) : ℤ) := by
    rw [eM]; omega
  have hH : ((n : ℤ) / Hour) = ((n / 3600000000000 : ℕ) : ℤ) := by
    rw [eH]; omega
  rw [hS, hM, hH]
  have hmain := humanize_natCast n hn63
  obtain ⟨hs1, hs2, hs3⟩ := inSeconds_natCast n hn63
  have hd := inDays_natCast n hn63
  change (NewTimeDiff n).Humanize = _ ∧ (NewTimeDiff n).InDays = _ ∧
    _ ≤ (NewTimeDiff n).InSeconds ∧ (NewTimeDiff n).InSeconds ≤ _ ∧
    (_ → (NewTimeDiff n).InSeconds = _ ∧ (NewTimeDiff n).Humanize = _)
  refine ⟨hmain, hd, hs1, hs2, ?_⟩
  intro hlt
  have hs : (NewTimeDiff n).InSeconds = ((n / 1000000000 : ℕ) : ℤ) :=
    hs3 (by exact_mod_cast hlt)
  refine ⟨hs, ?_⟩
  rw [hmain, hs]

/-- C12 at a concrete duration: 3 hours, 25 minutes and 7.5 seconds is `3 hours`. -/
theorem C12_humanize_thresholds_witness :
    (0 : Int) ≤ (NewTimeDiff 12307500000000).duration ∧
      (NewTimeDiff 12307500000000).duration < 2 ^ 63 ∧
      (NewTimeDiff 12307500000000).Humanize = "3 hours" := by
  have h := (C12_humanize_thresholds (NewTimeDiff 12307500000000) (by decide) (by decide)).2.2.2.2
    (by decide)
  refine ⟨by decide, by decide, ?_⟩
  rw [h.2]
  decide

/-- C12 as stated fails for a long duration that ends just below a whole second: 200 days
less one nanosecond has 17279999 whole seconds, 287999 whole minutes and 4799 whole hours, so
the claim gives `199 days`; `Seconds()` adds 17279999 and 0.999999999 in `float64`, which
rounds to 17280000, so `InSeconds` is 17280000 and `Humanize` returns `200 days`. -/
theorem C12_humanize_days_counterexample :
    (NewTimeDiff 17279999999999999).Humanize = "200 days" ∧
      (NewTimeDiff 17279999999999999).InSeconds = 17280000 ∧
      (17279999999999999 : Int) / Second = 17279999 ∧
      humanizeOf ((17279999999999999 : Int) / Second) ((17279999999999999 : Int) / Minute)
        ((17279999999999999 : Int) / Hour) ((17279999999999999 : Int) / Second / 86400) =
        "199 days" ∧
      (NewTimeDiff 17279999999999999).Humanize ≠
        humanizeOf ((17279999999999999 : Int) / Second) ((17279999999999999 : Int) / Minute)
          ((17279999999999999 : Int) / Hour) ((17279999999999999 : Int) / Second / 86400) := by
  have hH : (NewTimeDiff 17279999999999999).Humanize = "200 days" := by
    have h := humanize_natCast 17279999999999999 (by norm_num)
    have e : (((17279999999999999 : ℕ) : ℤ)) = (17279999999999999 : ℤ) := rfl
    rw [e, inSeconds_200_days_less_1ns] at h
    rw [h]
    decide
  have hO : humanizeOf ((17279999999999999 : Int) / Second)
      ((17279999999999999 : Int) / Minute) ((17279999999999999 : Int) / Hour)
      ((17279999999999999 : Int) / Second / 86400) = "199 days" := by decide
  refine ⟨hH, inSeconds_200_days_less_1ns, by decide, hO, ?_⟩
  rw [hH, hO]
  decide

end Aptomi
